import Mathlib

/-!
Verification of the kelly-monte-carlo core against its specification.

The development shallowly embeds the Python modules `kelly_mc/models.py`,
`kelly_mc/kelly.py`, `kelly_mc/engine.py` and `kelly_mc/analytics.py`.
Machine floats are modelled as exact rationals; the transcendental
log-growth values are modelled over the reals.  The scipy bounded
1-D minimizer (`minimize_scalar(..., bounds=(lo, hi), method="bounded")`,
an external library routine) is modelled as an arbitrary function
`solver : lo -> hi -> x` subject to its documented contract that the
returned abscissa lies inside the bounds (`SolverBounded`).  NumPy's
seeded generator `np.random.default_rng` is modelled as a seed-indexed
stream of uniform draws in [0, 1).
-/

set_option maxHeartbeats 1000000

namespace KellyMC

/-! ## Data model (`models.py`) -/

/-- `Scenario` dataclass: one discrete outcome within a setup. -/
structure Scenario where
  name : String
  probability : ℚ
  return_pct : ℚ
deriving DecidableEq

instance : Inhabited Scenario := ⟨⟨"", 0, 0⟩⟩

/-- Python's `not name.strip()` check, negated: the string contains at least
one non-whitespace character (equivalently, stripping whitespace leaves a
nonempty string). -/
def nonBlank (s : String) : Prop := s.data.any (fun c => !c.isWhitespace) = true

instance (s : String) : Decidable (nonBlank s) := by
  unfold nonBlank; infer_instance

/-- `Scenario.__post_init__`: the constructor checks that pass without raising. -/
def Scenario.Valid (s : Scenario) : Prop :=
  (0 ≤ s.probability ∧ s.probability ≤ 1) ∧ (-1 < s.return_pct) ∧ nonBlank s.name

instance (s : Scenario) : Decidable s.Valid := by
  unfold Scenario.Valid; infer_instance

/-- `Setup` dataclass: a named regime holding an ordered tuple of scenarios. -/
structure Setup where
  name : String
  probability : ℚ
  scenarios : List Scenario
  kelly_fraction : Option ℚ
deriving DecidableEq

instance : Inhabited Setup := ⟨⟨"", 0, [], none⟩⟩

/-- `sum(s.probability for s in scenarios)` -/
def probSum (l : List Scenario) : ℚ := (l.map Scenario.probability).sum

/-- `np.isclose(a, b, atol=1e-6)`.  NumPy's formula is
`|a - b| <= atol + rtol * |b|` with the *default* `rtol = 1e-5`,
so the effective absolute tolerance against `b = 1.0` is `1.1e-5`. -/
def npIsClose (a b : ℚ) : Prop := |a - b| ≤ 1 / 1000000 + 1 / 100000 * |b|

instance (a b : ℚ) : Decidable (npIsClose a b) := by
  unfold npIsClose; infer_instance

/-- The per-setup Kelly override check of `Setup.__post_init__`:
`kelly_fraction is not None -> kelly_fraction > 0`. -/
def kellyOverrideOk (o : Option ℚ) : Prop := ∀ k, o = some k → 0 < k

instance (o : Option ℚ) : Decidable (kellyOverrideOk o) :=
  match o with
  | none => isTrue (by simp [kellyOverrideOk])
  | some k => decidable_of_iff (0 < k) (by simp [kellyOverrideOk])

/-- `Setup.__post_init__`: checks that pass without raising (scenario validity
holds because Python `Scenario` values are themselves validated on
construction). -/
def Setup.Valid (st : Setup) : Prop :=
  nonBlank st.name ∧ (0 < st.probability ∧ st.probability ≤ 1) ∧
  2 ≤ st.scenarios.length ∧ npIsClose (probSum st.scenarios) 1 ∧
  kellyOverrideOk st.kelly_fraction ∧ ∀ sc ∈ st.scenarios, sc.Valid

instance (st : Setup) : Decidable st.Valid := by
  unfold Setup.Valid; infer_instance

/-- `SimulationConfig` dataclass. -/
structure SimulationConfig where
  setups : List Setup
  num_simulations : ℕ
  num_periods : ℕ
  initial_capital : ℚ
  default_kelly_fraction : ℚ
  seed : Option ℤ
deriving DecidableEq

/-- `sum(s.probability for s in setups)` -/
def setupProbSum (l : List Setup) : ℚ := (l.map Setup.probability).sum

/-- `SimulationConfig.__post_init__`: checks that pass without raising,
plus validity of the nested (already constructed) setups. -/
def SimulationConfig.Valid (cfg : SimulationConfig) : Prop :=
  cfg.setups ≠ [] ∧ npIsClose (setupProbSum cfg.setups) 1 ∧
  1 ≤ cfg.num_simulations ∧ 1 ≤ cfg.num_periods ∧ 0 < cfg.initial_capital ∧
  0 < cfg.default_kelly_fraction ∧ ∀ st ∈ cfg.setups, st.Valid

instance (cfg : SimulationConfig) : Decidable cfg.Valid := by
  unfold SimulationConfig.Valid; infer_instance

/-- `SimulationConfig.get_effective_kelly`. -/
def SimulationConfig.get_effective_kelly (cfg : SimulationConfig) (st : Setup) : ℚ :=
  match st.kelly_fraction with
  | some k => k
  | none => cfg.default_kelly_fraction

/-- `Scenario.__post_init__` as a fallible constructor: returns the error of the
first failing check, mirroring the `raise ValueError(...)` order. -/
def mkScenario (name : String) (probability return_pct : ℚ) : Except String Scenario :=
  if ¬(0 ≤ probability ∧ probability ≤ 1) then .error ("Probability must be in [0, 1]")
  else if return_pct ≤ -1 then .error ("Return must be > -100%")
  else if ¬ nonBlank name then .error ("Scenario name cannot be empty")
  else .ok ⟨name, probability, return_pct⟩

/-- `Setup.__post_init__` as a fallible constructor (check order as in source). -/
def mkSetup (name : String) (probability : ℚ) (scenarios : List Scenario)
    (kelly_fraction : Option ℚ) : Except String Setup :=
  if ¬ nonBlank name then .error ("Setup name cannot be empty")
  else if ¬(0 < probability ∧ probability ≤ 1) then
    .error ("Setup probability must be in (0, 1]")
  else if scenarios.length < 2 then .error ("Setup must have at least 2 scenarios")
  else if ¬ npIsClose (probSum scenarios) 1 then
    .error ("Scenario probabilities must sum to 1.0")
  else if ¬ kellyOverrideOk kelly_fraction then
    .error ("Per-setup kelly_fraction must be positive")
  else .ok ⟨name, probability, scenarios, kelly_fraction⟩

/-- `SimulationConfig.__post_init__` as a fallible constructor. -/
def mkSimulationConfig (setups : List Setup) (num_simulations num_periods : ℕ)
    (initial_capital default_kelly_fraction : ℚ) (seed : Option ℤ) :
    Except String SimulationConfig :=
  if setups.length = 0 then .error ("At least one setup is required")
  else if ¬ npIsClose (setupProbSum setups) 1 then
    .error ("Setup probabilities must sum to 1.0")
  else if num_simulations < 1 then .error ("Number of simulations must be >= 1")
  else if num_periods < 1 then .error ("Number of periods must be >= 1")
  else if initial_capital ≤ 0 then .error ("Initial capital must be positive")
  else if default_kelly_fraction ≤ 0 then .error ("default_kelly_fraction must be positive")
  else .ok ⟨setups, num_simulations, num_periods, initial_capital, default_kelly_fraction, seed⟩

/-- `Except.isOk` -/
def isOk {ε α : Type} : Except ε α → Bool
  | .ok _ => true
  | .error _ => false

/-! ## Kelly solver (`kelly.py`) -/

/-- `KellyInfo` dataclass. -/
structure KellyInfo where
  setup_name : String
  optimal_fraction : ℚ
  expected_log_growth : ℝ
  expected_return : ℚ
  variance : ℚ
  edge : ℚ
  odds_description : String

/-- `np.array([s.probability for s in setup.scenarios])` -/
def scenarioProbsOf (st : Setup) : List ℚ := st.scenarios.map Scenario.probability

/-- `np.array([s.return_pct for s in setup.scenarios])` -/
def scenarioReturnsOf (st : Setup) : List ℚ := st.scenarios.map Scenario.return_pct

/-- `expected_return = float(np.dot(probs, returns))` -/
def expectedReturn (st : Setup) : ℚ :=
  (st.scenarios.map (fun sc => sc.probability * sc.return_pct)).sum

/-- `variance = float(np.dot(probs, (returns - expected_return) ** 2))` -/
def varianceOf (st : Setup) : ℚ :=
  (st.scenarios.map (fun sc => sc.probability * (sc.return_pct - expectedReturn st) ^ 2)).sum

/-- Display helper: a rational as a percentage with 0 decimals (Python `:.0%`). -/
def pct0 (q : ℚ) : String :=
  (if q < 0 then "-" else "") ++ toString (round (|q| * 100)) ++ "%"

/-- Display helper: a rational as a percentage with 1 decimal (Python `:.1%`). -/
def pct1 (q : ℚ) : String :=
  let n : ℤ := round (|q| * 1000)
  (if q < 0 then "-" else "") ++ toString (n / 10) ++ ("." ) ++ toString (n % 10) ++ "%"

/-- `_build_odds_description`. -/
def buildOddsDescription (st : Setup) : String :=
  String.intercalate ("; ") (st.scenarios.map (fun sc =>
    sc.name ++ (": ") ++ pct0 sc.probability ++ (" chance of ") ++
      (if 0 ≤ sc.return_pct then "+" else "") ++ pct1 sc.return_pct))

/-- `returns.min()` on a nonempty array. -/
def qmin : List ℚ → ℚ
  | [] => 0
  | x :: xs => xs.foldl min x

/-- `min_return = returns.min()` -/
def minReturn (st : Setup) : ℚ := qmin (scenarioReturnsOf st)

/-- The feasibility bound of `compute_kelly_fraction`:
`f_max = -1.0 / min_return - 1e-9` when the minimum return is negative,
else the generous cap `10.0`. -/
def fMax (st : Setup) : ℚ :=
  if minReturn st < 0 then -1 / minReturn st - 1 / 1000000000 else 10

/-- Documented contract of `scipy.optimize.minimize_scalar(..., bounds=(lo, hi),
method="bounded")`: the returned abscissa `result.x` lies within the bounds. -/
def SolverBounded (solver : ℚ → ℚ → ℚ) : Prop :=
  ∀ lo hi, lo ≤ hi → lo ≤ solver lo hi ∧ solver lo hi ≤ hi

/-- `G(f) = sum(p_i * ln(1 + f * r_i))`, the (finite-valued) expected log
growth used for `KellyInfo.expected_log_growth` and the feasible branch of
`expected_log_growth_at`. -/
noncomputable def expectedLogGrowthReal (st : Setup) (f : ℚ) : ℝ :=
  (st.scenarios.map (fun sc =>
    (sc.probability : ℝ) * Real.log (1 + (f : ℝ) * (sc.return_pct : ℝ)))).sum

/-- `compute_kelly_fraction`, with the scipy bounded minimizer abstracted as
`solver` (`solver lo hi` is `result.x` for `bounds=(lo, hi)`);
`result.fun` is then `-G(result.x)` by definition of the objective. -/
noncomputable def compute_kelly_fraction (solver : ℚ → ℚ → ℚ) (st : Setup) : KellyInfo :=
  if expectedReturn st ≤ 0 then
    ⟨st.name, 0, 0, expectedReturn st, varianceOf st, expectedReturn st,
      buildOddsDescription st⟩
  else
    let x := solver 0 (fMax st)
    if x < 1 / 100000000 then
      ⟨st.name, 0, 0, expectedReturn st, varianceOf st, expectedReturn st,
        buildOddsDescription st⟩
    else
      ⟨st.name, x, expectedLogGrowthReal st x, expectedReturn st, varianceOf st,
        expectedReturn st, buildOddsDescription st⟩

/-- The `optimal_fraction` component of `compute_kelly_fraction`, as a
computable function (provably the projection of the full computation). -/
def optimalFraction (solver : ℚ → ℚ → ℚ) (st : Setup) : ℚ :=
  if expectedReturn st ≤ 0 then 0
  else if solver 0 (fMax st) < 1 / 100000000 then 0
  else solver 0 (fMax st)

theorem optimalFraction_eq (solver : ℚ → ℚ → ℚ) (st : Setup) :
    (compute_kelly_fraction solver st).optimal_fraction = optimalFraction solver st := by
  unfold compute_kelly_fraction optimalFraction
  dsimp only
  split_ifs <;> rfl

/-- `compute_blended_kelly`: probability-weighted sum of per-setup optimal
fractions, accumulated left to right as in the source loop. -/
noncomputable def compute_blended_kelly (solver : ℚ → ℚ → ℚ) (setups : List Setup) : ℚ :=
  setups.foldl
    (fun acc st => acc + st.probability * (compute_kelly_fraction solver st).optimal_fraction) 0

/-- `expected_log_growth_at`: `float("-inf")` (the bottom of `EReal`) when some
outcome term `1 + fraction * r_i` is nonpositive, else `G(fraction)`. -/
noncomputable def expected_log_growth_at (st : Setup) (fraction : ℚ) : EReal :=
  if st.scenarios.any (fun sc => decide (1 + fraction * sc.return_pct ≤ 0)) then ⊥
  else ((expectedLogGrowthReal st fraction : ℝ) : EReal)

/-! ## Helper lemmas for the Kelly solver -/

theorem foldl_min_mem (xs : List ℚ) : ∀ x : ℚ, xs.foldl min x ∈ x :: xs := by
  induction xs with
  | nil => intro x; simp
  | cons y ys ih =>
    intro x
    have h := ih (min x y)
    rw [List.foldl_cons]
    rcases List.mem_cons.mp h with h1 | h1
    · rcases min_choice x y with hc | hc
      · rw [h1, hc]
        exact List.mem_cons_self _ _
      · rw [h1, hc]
        exact List.mem_cons.mpr (Or.inr (List.mem_cons_self _ _))
    · exact List.mem_cons.mpr (Or.inr (List.mem_cons.mpr (Or.inr h1)))

theorem foldl_min_le (xs : List ℚ) : ∀ x y : ℚ, y ∈ x :: xs → xs.foldl min x ≤ y := by
  induction xs with
  | nil =>
    intro x y hy
    rw [List.foldl_nil]
    rcases List.mem_cons.mp hy with h1 | h1
    · exact le_of_eq h1.symm
    · simp at h1
  | cons z zs ih =>
    intro x y hy
    rw [List.foldl_cons]
    rcases List.mem_cons.mp hy with h1 | h1
    · refine le_trans (ih (min x z) (min x z) (List.mem_cons_self _ _)) ?_
      rw [h1]
      exact min_le_left _ _
    · rcases List.mem_cons.mp h1 with h2 | h2
      · refine le_trans (ih (min x z) (min x z) (List.mem_cons_self _ _)) ?_
        rw [h2]
        exact min_le_right _ _
      · exact ih (min x z) y (List.mem_cons.mpr (Or.inr h2))

theorem qmin_mem (l : List ℚ) (h : l ≠ []) : qmin l ∈ l := by
  cases l with
  | nil => exact absurd rfl h
  | cons x xs => exact foldl_min_mem xs x

theorem qmin_le (l : List ℚ) (y : ℚ) (hy : y ∈ l) : qmin l ≤ y := by
  cases l with
  | nil => simp at hy
  | cons x xs => exact foldl_min_le xs x y hy

theorem setup_scenarios_ne_nil (st : Setup) (hv : st.Valid) : st.scenarios ≠ [] := by
  intro h
  have := hv.2.2.1
  rw [h] at this
  simp at this

theorem setup_returns_gt_neg_one (st : Setup) (hv : st.Valid) :
    ∀ r ∈ scenarioReturnsOf st, -1 < r := by
  intro r hr
  obtain ⟨sc, hsc, rfl⟩ := List.mem_map.mp hr
  exact (hv.2.2.2.2.2 sc hsc).2.1

theorem minReturn_gt_neg_one (st : Setup) (hv : st.Valid) : -1 < minReturn st := by
  have hne : scenarioReturnsOf st ≠ [] := by
    unfold scenarioReturnsOf
    simp [setup_scenarios_ne_nil st hv]
  exact setup_returns_gt_neg_one st hv _ (qmin_mem _ hne)

theorem fMax_pos (st : Setup) (hv : st.Valid) : 0 < fMax st := by
  unfold fMax
  split_ifs with hm
  · have h1 : -1 < minReturn st := minReturn_gt_neg_one st hv
    have h2 : 0 < -(minReturn st) := by linarith
    have h3 : -(minReturn st) < 1 := by linarith
    have h4 : (1 : ℚ) < 1 / -(minReturn st) := one_lt_one_div h2 h3
    have h5 : -1 / minReturn st = 1 / -(minReturn st) := by
      rw [div_neg, neg_div]
    rw [h5]
    linarith
  · norm_num

/-! ## Claim theorems: Kelly solver -/

/-- C1: for every `Setup` satisfying the construction invariants and every
bounded solver, `compute_kelly_fraction` is total (the Lean embedding is a
total function), the returned `optimal_fraction` is nonnegative, and on a
nonpositive expected return the optimal fraction and log growth are
exactly `0` while the remaining fields are still populated. -/
theorem compute_kelly_fraction_nonneg_and_zero_edge (solver : ℚ → ℚ → ℚ) (st : Setup)
    (hs : SolverBounded solver) (hv : st.Valid) :
    0 ≤ (compute_kelly_fraction solver st).optimal_fraction ∧
    (expectedReturn st ≤ 0 →
      (compute_kelly_fraction solver st).optimal_fraction = 0 ∧
      (compute_kelly_fraction solver st).expected_log_growth = 0 ∧
      (compute_kelly_fraction solver st).expected_return = expectedReturn st ∧
      (compute_kelly_fraction solver st).variance = varianceOf st ∧
      (compute_kelly_fraction solver st).edge = expectedReturn st ∧
      (compute_kelly_fraction solver st).odds_description = buildOddsDescription st) := by
  constructor
  · rw [optimalFraction_eq]
    unfold optimalFraction
    split_ifs with h1 h2
    · exact le_refl 0
    · exact le_refl 0
    · exact (hs 0 (fMax st) (fMax_pos st hv).le).1
  · intro he
    unfold compute_kelly_fraction
    rw [if_pos he]
    exact ⟨rfl, rfl, rfl, rfl, rfl, rfl⟩

/-- A concrete negative-edge setup (test fixture shape: Win 30% at +10%,
Loss 70% at −10%). -/
def setupBad : Setup := ⟨"BadBet", 1, [⟨"Win", 3/10, 1/10⟩, ⟨"Loss", 7/10, -1/10⟩], none⟩

/-- A concrete positive-edge setup with regime probability 1/2 (test fixture
shape: Win 60% at +20%, Loss 40% at −10%). -/
def setupHalf : Setup := ⟨"Half", 1/2, [⟨"Win", 3/5, 1/5⟩, ⟨"Loss", 2/5, -1/10⟩], none⟩

/-- The same setup with regime probability 1. -/
def setupFull : Setup := ⟨"Full", 1, [⟨"Win", 3/5, 1/5⟩, ⟨"Loss", 2/5, -1/10⟩], none⟩

/-- A concrete bounded solver (always returns the upper bound). -/
def hiSolver : ℚ → ℚ → ℚ := fun _ hi => hi

theorem setupBad_valid : Setup.Valid setupBad := by
  refine ⟨by decide, ⟨by norm_num [setupBad], by norm_num [setupBad]⟩,
    by norm_num [setupBad], ?_, ?_, ?_⟩
  · norm_num [setupBad, npIsClose, probSum, abs_le]
  · simp [setupBad, kellyOverrideOk]
  · intro sc hsc
    simp only [setupBad, List.mem_cons, List.not_mem_nil, or_false] at hsc
    rcases hsc with rfl | rfl
    · exact ⟨⟨by norm_num, by norm_num⟩, by norm_num, by decide⟩
    · exact ⟨⟨by norm_num, by norm_num⟩, by norm_num, by decide⟩

theorem setupHalf_valid : Setup.Valid setupHalf := by
  refine ⟨by decide, ⟨by norm_num [setupHalf], by norm_num [setupHalf]⟩,
    by norm_num [setupHalf], ?_, ?_, ?_⟩
  · norm_num [setupHalf, npIsClose, probSum, abs_le]
  · simp [setupHalf, kellyOverrideOk]
  · intro sc hsc
    simp only [setupHalf, List.mem_cons, List.not_mem_nil, or_false] at hsc
    rcases hsc with rfl | rfl
    · exact ⟨⟨by norm_num, by norm_num⟩, by norm_num, by decide⟩
    · exact ⟨⟨by norm_num, by norm_num⟩, by norm_num, by decide⟩

theorem setupFull_valid : Setup.Valid setupFull := by
  refine ⟨by decide, ⟨by norm_num [setupFull], by norm_num [setupFull]⟩,
    by norm_num [setupFull], ?_, ?_, ?_⟩
  · norm_num [setupFull, npIsClose, probSum, abs_le]
  · simp [setupFull, kellyOverrideOk]
  · intro sc hsc
    simp only [setupFull, List.mem_cons, List.not_mem_nil, or_false] at hsc
    rcases hsc with rfl | rfl
    · exact ⟨⟨by norm_num, by norm_num⟩, by norm_num, by decide⟩
    · exact ⟨⟨by norm_num, by norm_num⟩, by norm_num, by decide⟩

/-- Witness for C1 at a concrete negative-edge setup and a concrete
in-bounds solver. -/
theorem compute_kelly_fraction_nonneg_and_zero_edge_witness :
    SolverBounded (fun lo _ => lo) ∧ Setup.Valid setupBad ∧
    (0 ≤ (compute_kelly_fraction (fun lo _ => lo) setupBad).optimal_fraction ∧
      (expectedReturn setupBad ≤ 0 →
        (compute_kelly_fraction (fun lo _ => lo) setupBad).optimal_fraction = 0 ∧
        (compute_kelly_fraction (fun lo _ => lo) setupBad).expected_log_growth = 0 ∧
        (compute_kelly_fraction (fun lo _ => lo) setupBad).expected_return =
          expectedReturn setupBad ∧
        (compute_kelly_fraction (fun lo _ => lo) setupBad).variance = varianceOf setupBad ∧
        (compute_kelly_fraction (fun lo _ => lo) setupBad).edge = expectedReturn setupBad ∧
        (compute_kelly_fraction (fun lo _ => lo) setupBad).odds_description =
          buildOddsDescription setupBad)) :=
  ⟨fun _ _ h => ⟨le_rfl, h⟩, setupBad_valid,
    compute_kelly_fraction_nonneg_and_zero_edge _ _ (fun _ _ h => ⟨le_rfl, h⟩) setupBad_valid⟩

/-- C5 counterexample: for a valid single setup whose regime probability is
1/2, `compute_blended_kelly` over the one-element tuple does NOT equal the
setup's optimal fraction (the sum is weighted by `setup.probability`). -/
theorem blended_single_setup_counterexample :
    Setup.Valid setupHalf ∧ SolverBounded hiSolver ∧
    compute_blended_kelly hiSolver [setupHalf] ≠
      (compute_kelly_fraction hiSolver setupHalf).optimal_fraction := by
  refine ⟨setupHalf_valid, fun _ _ h => ⟨h, le_rfl⟩, ?_⟩
  have hof : optimalFraction hiSolver setupHalf = 10 - 1 / 1000000000 := by
    norm_num [optimalFraction, hiSolver, expectedReturn, setupHalf, fMax, minReturn, qmin,
      scenarioReturnsOf, min_def]
  simp only [compute_blended_kelly, List.foldl, optimalFraction_eq, hof]
  norm_num [setupHalf]

/-- C5 amended: `compute_blended_kelly` over a one-element tuple equals
`setup.probability * optimal_fraction`, hence equals the optimal fraction
exactly when the setup's regime probability is 1. -/
theorem blended_single_setup_weighted (solver : ℚ → ℚ → ℚ) (st : Setup) :
    compute_blended_kelly solver [st] =
      st.probability * (compute_kelly_fraction solver st).optimal_fraction ∧
    (st.probability = 1 →
      compute_blended_kelly solver [st] =
        (compute_kelly_fraction solver st).optimal_fraction) := by
  constructor
  · unfold compute_blended_kelly
    simp
  · intro h1
    unfold compute_blended_kelly
    simp [h1]

/-- Witness for C5 amended at a concrete probability-1 setup. -/
theorem blended_single_setup_weighted_witness :
    compute_blended_kelly hiSolver [setupFull] =
      (compute_kelly_fraction hiSolver setupFull).optimal_fraction :=
  (blended_single_setup_weighted hiSolver setupFull).2 rfl

/-- C6: `expected_log_growth_at` returns negative infinity exactly when some
outcome term `1 + f * r_i` is nonpositive, otherwise the weighted log sum;
and at fraction 0 it is exactly 0. -/
theorem expected_log_growth_at_spec (st : Setup) (f : ℚ) :
    (expected_log_growth_at st f = ⊥ ↔ ∃ sc ∈ st.scenarios, 1 + f * sc.return_pct ≤ 0) ∧
    ((∀ sc ∈ st.scenarios, 0 < 1 + f * sc.return_pct) →
      expected_log_growth_at st f = ((expectedLogGrowthReal st f : ℝ) : EReal)) ∧
    expected_log_growth_at st 0 = (0 : EReal) := by
  refine ⟨?_, ?_, ?_⟩
  · unfold expected_log_growth_at
    split_ifs with h
    · simp only [List.any_eq_true, decide_eq_true_eq] at h
      exact ⟨fun _ => h, fun _ => rfl⟩
    · simp only [List.any_eq_true, decide_eq_true_eq] at h
      exact ⟨fun hc => absurd hc (EReal.coe_ne_bot _), fun hex => absurd hex h⟩
  · intro hall
    have hfalse :
        ¬ (st.scenarios.any (fun sc => decide (1 + f * sc.return_pct ≤ 0)) = true) := by
      simp only [List.any_eq_true, decide_eq_true_eq]
      push_neg
      exact hall
    unfold expected_log_growth_at
    rw [if_neg hfalse]
  · have hfalse :
        ¬ (st.scenarios.any (fun sc => decide (1 + (0 : ℚ) * sc.return_pct ≤ 0)) = true) := by
      simp
    unfold expected_log_growth_at
    rw [if_neg hfalse]
    have h0 : expectedLogGrowthReal st 0 = 0 := by
      unfold expectedLogGrowthReal
      apply List.sum_eq_zero
      intro x hx
      obtain ⟨sc, hsc, rfl⟩ := List.mem_map.mp hx
      simp
    rw [h0]
    simp

/-- Witness for C6 at a concrete setup and fraction 0. -/
theorem expected_log_growth_at_spec_witness :
    expected_log_growth_at setupFull 0 = (0 : EReal) :=
  (expected_log_growth_at_spec setupFull 0).2.2

/-- C10: the solver's recommended fraction keeps every single-period outcome
solvent: `1 + f* · r_i > 0` for every scenario, equivalently the growth
function is finite (not negative infinity) at the optimal fraction. -/
theorem optimal_fraction_keeps_solvent (solver : ℚ → ℚ → ℚ) (st : Setup)
    (hs : SolverBounded solver) (hv : st.Valid) :
    (∀ sc ∈ st.scenarios,
      0 < 1 + (compute_kelly_fraction solver st).optimal_fraction * sc.return_pct) ∧
    expected_log_growth_at st (compute_kelly_fraction solver st).optimal_fraction ≠ ⊥ := by
  have key : ∀ sc ∈ st.scenarios, 0 < 1 + optimalFraction solver st * sc.return_pct := by
    intro sc hsc
    unfold optimalFraction
    split_ifs with h1 h2
    · simp
    · simp
    · have hb := hs 0 (fMax st) (fMax_pos st hv).le
      rcases le_or_lt 0 sc.return_pct with hr | hr
      · have : 0 ≤ solver 0 (fMax st) * sc.return_pct := mul_nonneg hb.1 hr
        linarith
      · have hmem : sc.return_pct ∈ scenarioReturnsOf st := by
          unfold scenarioReturnsOf
          exact List.mem_map.mpr ⟨sc, hsc, rfl⟩
        have hmle : minReturn st ≤ sc.return_pct := qmin_le _ _ hmem
        have hmneg : minReturn st < 0 := lt_of_le_of_lt hmle hr
        have hfm : fMax st = -1 / minReturn st - 1 / 1000000000 := by
          unfold fMax
          rw [if_pos hmneg]
        have hcancel : -1 / minReturn st * minReturn st = -1 :=
          div_mul_cancel₀ (-1 : ℚ) (ne_of_lt hmneg)
        have hstep1 : fMax st * sc.return_pct ≤ solver 0 (fMax st) * sc.return_pct :=
          mul_le_mul_of_nonpos_right hb.2 hr.le
        have hstep2 : fMax st * minReturn st ≤ fMax st * sc.return_pct :=
          mul_le_mul_of_nonneg_left hmle (fMax_pos st hv).le
        have hbase : 1 + fMax st * minReturn st = -(1 / 1000000000) * minReturn st := by
          rw [hfm, sub_mul, hcancel]
          ring
        have hpos : 0 < -(1 / 1000000000 : ℚ) * minReturn st :=
          mul_pos_of_neg_of_neg (by norm_num) hmneg
        linarith
  rw [optimalFraction_eq]
  refine ⟨key, ?_⟩
  have hfalse :
      ¬ (st.scenarios.any
        (fun sc => decide (1 + optimalFraction solver st * sc.return_pct ≤ 0)) = true) := by
    simp only [List.any_eq_true, decide_eq_true_eq]
    push_neg
    exact key
  unfold expected_log_growth_at
  rw [if_neg hfalse]
  exact EReal.coe_ne_bot _

/-- Witness for C10 at a concrete positive-edge setup and concrete solver. -/
theorem optimal_fraction_keeps_solvent_witness :
    SolverBounded hiSolver ∧ Setup.Valid setupFull ∧
    ((∀ sc ∈ setupFull.scenarios,
        0 < 1 + (compute_kelly_fraction hiSolver setupFull).optimal_fraction * sc.return_pct) ∧
      expected_log_growth_at setupFull
        (compute_kelly_fraction hiSolver setupFull).optimal_fraction ≠ ⊥) :=
  ⟨fun _ _ h => ⟨h, le_rfl⟩, setupFull_valid,
    optimal_fraction_keeps_solvent _ _ (fun _ _ h => ⟨h, le_rfl⟩) setupFull_valid⟩

/-- C7 counterexample: scenario probabilities that deviate from 1 by 5e-6
(more than the claimed 1e-6 tolerance) are nevertheless accepted by the
`Setup` constructor, because `np.isclose(total, 1.0, atol=1e-6)` also applies
its default relative tolerance 1e-5. -/
theorem setup_tolerance_counterexample :
    isOk (mkSetup ("S") 1 [⟨"A", 1/2, 0⟩, ⟨"B", 1/2 + 5/1000000, 0⟩] none) = true ∧
    ¬ |probSum [(⟨"A", 1/2, 0⟩ : Scenario), ⟨"B", 1/2 + 5/1000000, 0⟩] - 1| ≤ 1/1000000 := by
  have hsum : probSum [(⟨"A", 1/2, 0⟩ : Scenario), ⟨"B", 1/2 + 5/1000000, 0⟩] =
      1 + 5/1000000 := by
    norm_num [probSum]
  constructor
  · unfold mkSetup
    rw [if_neg (not_not.mpr (by decide)),
      if_neg (not_not.mpr ⟨by norm_num, by norm_num⟩),
      if_neg (by simp),
      if_neg (not_not.mpr (by unfold npIsClose; rw [hsum]; rw [abs_le]; constructor <;> norm_num)),
      if_neg (not_not.mpr (by simp [kellyOverrideOk]))]
    rfl
  · rw [hsum, abs_of_nonneg (by norm_num)]
    norm_num

/-- C7 amended: with all other constructor checks satisfied, `Setup` and
`SimulationConfig` construction succeeds exactly when the probability sum is
within `np.isclose`'s effective tolerance `1e-6 + 1e-5 · |1.0| = 1.1e-5` of 1
(not within 1e-6). -/
theorem construction_tolerance_iff :
    (∀ (name : String) (p : ℚ) (scens : List Scenario) (kf : Option ℚ),
      nonBlank name → 0 < p → p ≤ 1 → 2 ≤ scens.length → kellyOverrideOk kf →
      (isOk (mkSetup name p scens kf) = true ↔ npIsClose (probSum scens) 1)) ∧
    (∀ (setups : List Setup) (nsim nper : ℕ) (cap dk : ℚ) (seed : Option ℤ),
      setups ≠ [] → 1 ≤ nsim → 1 ≤ nper → 0 < cap → 0 < dk →
      (isOk (mkSimulationConfig setups nsim nper cap dk seed) = true ↔
        npIsClose (setupProbSum setups) 1)) := by
  constructor
  · intro name p scens kf hname hp1 hp2 hlen hkf
    unfold mkSetup
    rw [if_neg (not_not.mpr hname), if_neg (not_not.mpr ⟨hp1, hp2⟩), if_neg (not_lt.mpr hlen)]
    by_cases hcl : npIsClose (probSum scens) 1
    · rw [if_neg (not_not.mpr hcl), if_neg (not_not.mpr hkf)]
      simp [isOk, hcl]
    · rw [if_pos hcl]
      simp [isOk, hcl]
  · intro setups nsim nper cap dk seed hne hns hnp hcap hdk
    unfold mkSimulationConfig
    rw [if_neg (fun h => hne (List.length_eq_zero.mp h)), if_neg (not_lt.mpr hns),
      if_neg (not_lt.mpr hnp), if_neg (not_le.mpr hcap), if_neg (not_le.mpr hdk)]
    by_cases hcl : npIsClose (setupProbSum setups) 1
    · rw [if_neg (not_not.mpr hcl)]
      simp [isOk, hcl]
    · rw [if_pos hcl]
      simp [isOk, hcl]

/-- Witness for C7 amended at concrete inputs. -/
theorem construction_tolerance_iff_witness :
    isOk (mkSetup ("S") 1 [⟨"A", 1/2, 0⟩, ⟨"B", 1/2, 0⟩] none) = true ↔
      npIsClose (probSum [(⟨"A", 1/2, 0⟩ : Scenario), ⟨"B", 1/2, 0⟩]) 1 :=
  construction_tolerance_iff.1 ("S") 1 _ none (by decide) (by norm_num) (by norm_num)
    (by simp) (by simp [kellyOverrideOk])

/-! ## Simulation engine (`engine.py`)

The single NumPy generator is modelled as a stream `u : ℕ → ℚ` of uniform
draws in `[0, 1)`, consumed in the engine's fixed sequential order: first the
`N*T` setup draws (cell-by-cell in row-major order), then for each setup index
in turn the draws for the cells of that setup's mask. -/

/-- `np.cumsum(probs)`. -/
def cumsum : List ℚ → List ℚ
  | [] => []
  | x :: xs => x :: (cumsum xs).map (fun y => x + y)

/-- `cumprobs[-1] = 1.0`: force the last cumulative value to exactly 1. -/
def forceLastOne (l : List ℚ) : List ℚ := l.set (l.length - 1) 1

/-- The binary search performed by `np.searchsorted(a, v)` (default side
`left`): bisection on `[lo, hi)` with explicit fuel (the interval halves
every step, so `a.length + 1` fuel always suffices). -/
def bisectAux (a : List ℚ) (v : ℚ) : ℕ → ℕ → ℕ → ℕ
  | 0, lo, _ => lo
  | fuel + 1, lo, hi =>
    if lo < hi then
      if a.getD ((lo + hi) / 2) 0 < v then bisectAux a v fuel ((lo + hi) / 2 + 1) hi
      else bisectAux a v fuel lo ((lo + hi) / 2)
    else lo

/-- `np.searchsorted(a, v)` (side `left`). -/
def searchsortedLeft (a : List ℚ) (v : ℚ) : ℕ := bisectAux a v (a.length + 1) 0 a.length

/-- `_sample_categorical` for a single uniform draw `u`. -/
def sampleCategorical (probs : List ℚ) (u : ℚ) : ℕ :=
  searchsortedLeft (forceLastOne (cumsum probs)) u

/-- Mutable state threaded through the per-setup scenario-sampling loop:
the two `np.empty` output matrices (flattened row-major, initial contents
irrelevant, modelled as zeros) and the number of uniform draws consumed so
far by the generator. -/
structure EngineState where
  scenario_indices : List ℕ
  period_returns : List ℚ
  draw_offset : ℕ

/-- The vectorized masked assignment `arr[mask] = values`: write `f 0, f 1, …`
at the (ascending) mask positions. -/
def writeSeq {α : Type} : List α → List ℕ → (ℕ → α) → ℕ → List α
  | l, [], _, _ => l
  | l, p :: ps, f, j => writeSeq (l.set p (f j)) ps f (j + 1)

/-- The cell positions of `mask = setup_indices == setup_idx`, in row-major
order. -/
def maskPositions (setupIdx : List ℕ) (s : ℕ) : List ℕ :=
  (List.range setupIdx.length).filter (fun c => decide (setupIdx.getD c 0 = s))

/-- One iteration of the engine's per-setup loop (`for setup_idx in range(...)`):
on an empty mask nothing happens (`continue`, no draws consumed); otherwise
`count` fresh uniforms are drawn, mapped through the setup's scenario
distribution, and scattered into both output matrices at the mask positions. -/
def scatterSetup (cfg : SimulationConfig) (u : ℕ → ℚ) (setupIdx : List ℕ) (s : ℕ)
    (st : EngineState) : EngineState :=
  if (maskPositions setupIdx s).length = 0 then st
  else
    { scenario_indices :=
        writeSeq st.scenario_indices (maskPositions setupIdx s)
          (fun j => sampleCategorical (scenarioProbsOf (cfg.setups.getD s default))
            (u (st.draw_offset + j))) 0
      period_returns :=
        writeSeq st.period_returns (maskPositions setupIdx s)
          (fun j => (scenarioReturnsOf (cfg.setups.getD s default)).getD
            (sampleCategorical (scenarioProbsOf (cfg.setups.getD s default))
              (u (st.draw_offset + j))) 0) 0
      draw_offset := st.draw_offset + (maskPositions setupIdx s).length }

/-- The whole per-setup scenario-sampling loop of `run_simulation` (step 2). -/
def scatterAll (cfg : SimulationConfig) (u : ℕ → ℚ) (setupIdx : List ℕ) : EngineState :=
  (List.range cfg.setups.length).foldl (fun st s => scatterSetup cfg u setupIdx s st)
    ⟨List.replicate setupIdx.length 0, List.replicate setupIdx.length 0, setupIdx.length⟩

/-- `SimulationResult` (matrices as lists of rows; `config` back-reference
kept implicitly by passing `cfg` alongside). -/
structure SimResult where
  portfolio_values : List (List ℚ)
  period_returns : List (List ℚ)
  setup_indices : List (List ℕ)
  scenario_indices : List (List ℕ)

/-- `np.array([s.probability for s in config.setups])`. -/
def setupProbsOf (cfg : SimulationConfig) : List ℚ := cfg.setups.map Setup.probability

/-- Step 1 of `run_simulation`: the flattened (row-major) `N×T` matrix of
setup indices, one categorical draw per cell from the first `N*T` uniforms. -/
def setupIdxFlat (cfg : SimulationConfig) (u : ℕ → ℚ) : List ℕ :=
  (List.range (cfg.num_simulations * cfg.num_periods)).map
    (fun c => sampleCategorical (setupProbsOf cfg) (u c))

/-- `run_simulation`, given the uniform stream of the seeded generator.
Step 1 draws the `N*T` setup indices, step 2 is the scatter loop, step 3
resolves the per-cell effective Kelly fraction, step 4 compounds the
growth factors (`portfolio_values[:, 0] = initial_capital`,
`portfolio_values[:, 1:] = initial_capital * cumprod(growth, axis=1)`). -/
def runSimulation (cfg : SimulationConfig) (u : ℕ → ℚ) : SimResult :=
  let setupIdx := setupIdxFlat cfg u
  let st := scatterAll cfg u setupIdx
  let kellyArr := cfg.setups.map cfg.get_effective_kelly
  let growth := fun c =>
    1 + kellyArr.getD (setupIdx.getD c 0) 0 * st.period_returns.getD c 0
  { portfolio_values := (List.range cfg.num_simulations).map (fun i =>
      (List.range (cfg.num_periods + 1)).map (fun j =>
        cfg.initial_capital *
          ((List.range j).map (fun t => growth (i * cfg.num_periods + t))).prod))
    period_returns := (List.range cfg.num_simulations).map (fun i =>
      (List.range cfg.num_periods).map (fun j =>
        st.period_returns.getD (i * cfg.num_periods + j) 0))
    setup_indices := (List.range cfg.num_simulations).map (fun i =>
      (List.range cfg.num_periods).map (fun j =>
        setupIdx.getD (i * cfg.num_periods + j) 0))
    scenario_indices := (List.range cfg.num_simulations).map (fun i =>
      (List.range cfg.num_periods).map (fun j =>
        st.scenario_indices.getD (i * cfg.num_periods + j) 0)) }

/-- `run_simulation` including the seeding step
`rng = np.random.default_rng(config.seed)`: the external PRNG is modelled as
a family of uniform streams indexed by the optional seed, so a fixed seed
always yields the same stream. -/
def runSimulationSeeded (rng : Option ℤ → ℕ → ℚ) (cfg : SimulationConfig) : SimResult :=
  runSimulation cfg (rng cfg.seed)

/-! ## Helper lemmas for the engine -/

theorem getD_set_self {α : Type} (l : List α) (i : ℕ) (x d : α) (h : i < l.length) :
    (l.set i x).getD i d = x := by
  induction l generalizing i with
  | nil => simp at h
  | cons a as ih =>
    cases i with
    | zero => simp
    | succ n =>
      simp only [List.set_cons_succ, List.getD_cons_succ]
      exact ih n (by simpa using h)

theorem getD_set_ne {α : Type} (l : List α) (i c : ℕ) (x d : α) (h : c ≠ i) :
    (l.set i x).getD c d = l.getD c d := by
  induction l generalizing i c with
  | nil => simp
  | cons a as ih =>
    cases i with
    | zero =>
      cases c with
      | zero => exact absurd rfl h
      | succ m => simp
    | succ n =>
      cases c with
      | zero => simp
      | succ m =>
        simp only [List.set_cons_succ, List.getD_cons_succ]
        exact ih n m (fun he => h (by rw [he]))

theorem getD_map_lt {α β : Type} (f : α → β) (l : List α) (k : ℕ) (d : α) (dd : β)
    (h : k < l.length) : (l.map f).getD k dd = f (l.getD k d) := by
  induction l generalizing k with
  | nil => simp at h
  | cons a as ih =>
    cases k with
    | zero => simp
    | succ n =>
      simp only [List.map_cons, List.getD_cons_succ]
      exact ih n (by simpa using h)

theorem cumsum_length (l : List ℚ) : (cumsum l).length = l.length := by
  induction l with
  | nil => simp [cumsum]
  | cons x xs ih => simp [cumsum, ih]

theorem cumsum_getD (l : List ℚ) (k : ℕ) (hk : k < l.length) :
    (cumsum l).getD k 0 = (l.take (k + 1)).sum := by
  induction l generalizing k with
  | nil => simp at hk
  | cons x xs ih =>
    cases k with
    | zero => simp [cumsum]
    | succ n =>
      have hn : n < xs.length := by simpa using hk
      simp only [cumsum, List.getD_cons_succ]
      rw [getD_map_lt _ _ _ 0 _ (by rw [cumsum_length]; exact hn), ih n hn]
      simp [List.sum_cons]

theorem forceLastOne_length (l : List ℚ) : (forceLastOne l).length = l.length := by
  simp [forceLastOne]

theorem forceLast_cumsum_getD (probs : List ℚ) (hsum : probs.sum = 1) (k : ℕ)
    (hk : k < probs.length) :
    (forceLastOne (cumsum probs)).getD k 0 = (probs.take (k + 1)).sum := by
  by_cases hlast : k = probs.length - 1
  · have hk1 : probs.length - 1 < (cumsum probs).length := by rw [cumsum_length]; omega
    unfold forceLastOne
    rw [cumsum_length, hlast, getD_set_self _ _ _ _ hk1]
    have : probs.take (probs.length - 1 + 1) = probs := by
      apply List.take_of_length_le
      omega
    rw [this, hsum]
  · unfold forceLastOne
    rw [cumsum_length, getD_set_ne _ _ _ _ _ hlast, cumsum_getD _ _ hk]

theorem forceLast_cumsum_last (probs : List ℚ) (hne : probs ≠ []) :
    (forceLastOne (cumsum probs)).getD ((forceLastOne (cumsum probs)).length - 1) 0 = 1 := by
  have h0 : 0 < probs.length := List.length_pos.mpr hne
  have hk1 : probs.length - 1 < (cumsum probs).length := by rw [cumsum_length]; omega
  rw [forceLastOne_length, cumsum_length]
  unfold forceLastOne
  rw [cumsum_length, getD_set_self _ _ _ _ hk1]

theorem bisectAux_spec (a : List ℚ) (v : ℚ) :
    ∀ (fuel lo hi : ℕ), lo ≤ hi → hi ≤ a.length → hi - lo ≤ fuel →
    (0 < lo → a.getD (lo - 1) 0 < v) → (hi < a.length → ¬ a.getD hi 0 < v) →
    lo ≤ bisectAux a v fuel lo hi ∧ bisectAux a v fuel lo hi ≤ hi ∧
    (0 < bisectAux a v fuel lo hi → a.getD (bisectAux a v fuel lo hi - 1) 0 < v) ∧
    (bisectAux a v fuel lo hi < a.length → ¬ a.getD (bisectAux a v fuel lo hi) 0 < v) := by
  intro fuel
  induction fuel with
  | zero =>
    intro lo hi h1 h2 h3 h4 h5
    have heq : lo = hi := by omega
    subst heq
    simp only [bisectAux]
    exact ⟨le_rfl, le_rfl, h4, h5⟩
  | succ fuel ih =>
    intro lo hi h1 h2 h3 h4 h5
    by_cases hlh : lo < hi
    · have hmid1 : lo ≤ (lo + hi) / 2 := by omega
      have hmid2 : (lo + hi) / 2 < hi := by omega
      by_cases hm : a.getD ((lo + hi) / 2) 0 < v
      · have hres := ih ((lo + hi) / 2 + 1) hi (by omega) h2 (by omega)
          (fun _ => by simpa using hm) h5
        simp only [bisectAux, if_pos hlh, if_pos hm]
        exact ⟨le_trans (by omega) hres.1, hres.2.1, hres.2.2.1, hres.2.2.2⟩
      · have hres := ih lo ((lo + hi) / 2) (by omega) (by omega) (by omega)
          h4 (fun _ => hm)
        simp only [bisectAux, if_pos hlh, if_neg hm]
        exact ⟨hres.1, le_trans hres.2.1 (by omega), hres.2.2.1, hres.2.2.2⟩
    · have heq : lo = hi := by omega
      subst heq
      simp only [bisectAux, if_neg hlh]
      exact ⟨le_rfl, le_rfl, h4, h5⟩

theorem searchsortedLeft_spec (a : List ℚ) (v : ℚ) :
    searchsortedLeft a v ≤ a.length ∧
    (0 < searchsortedLeft a v → a.getD (searchsortedLeft a v - 1) 0 < v) ∧
    (searchsortedLeft a v < a.length → ¬ a.getD (searchsortedLeft a v) 0 < v) := by
  have h := bisectAux_spec a v (a.length + 1) 0 a.length (by omega) le_rfl (by omega)
    (fun hc => absurd hc (by omega)) (fun hc => absurd hc (lt_irrefl _))
  exact ⟨h.2.1, h.2.2.1, h.2.2.2⟩

/-- The sampler always returns a valid index: the forced final cumulative
value 1 cannot be strictly below a uniform draw `u < 1`. -/
theorem sampleCategorical_lt_length (probs : List ℚ) (u : ℚ) (hne : probs ≠ [])
    (hu : u < 1) : sampleCategorical probs u < probs.length := by
  have h0 : 0 < probs.length := List.length_pos.mpr hne
  have hlen : (forceLastOne (cumsum probs)).length = probs.length := by
    rw [forceLastOne_length, cumsum_length]
  have hspec := searchsortedLeft_spec (forceLastOne (cumsum probs)) u
  unfold sampleCategorical
  rcases lt_or_eq_of_le hspec.1 with h | h
  · rw [hlen] at h
    exact h
  · exfalso
    have hpos : 0 < searchsortedLeft (forceLastOne (cumsum probs)) u := by
      rw [h, hlen]
      exact h0
    have hlt := hspec.2.1 hpos
    rw [h] at hlt
    rw [forceLast_cumsum_last probs hne] at hlt
    linarith

theorem getD_eq_get {α : Type} (l : List α) (k : ℕ) (d : α) (h : k < l.length) :
    l.getD k d = l.get ⟨k, h⟩ := by
  induction l generalizing k with
  | nil => simp at h
  | cons a as ih =>
    cases k with
    | zero => simp
    | succ n => simpa using ih n (by simpa using h)

theorem getD_mem {α : Type} (l : List α) (n : ℕ) (d : α) (h : n < l.length) :
    l.getD n d ∈ l := by
  rw [getD_eq_get _ _ _ h]
  exact List.get_mem _ _ _

/-- C8 counterexample: the inverse-CDF sampler CAN return the index of a
zero-probability category: on the probability vector `[0, 1]` the uniform
draw `u = 0` (a legal value of `rng.random()`, which samples `[0, 1)`) maps
to index 0, whose probability is exactly 0. -/
theorem zero_probability_drawn_counterexample :
    ([(0 : ℚ), 1].getD 0 0 = 0) ∧ ((0 : ℚ) ≤ 0 ∧ (0 : ℚ) < 1) ∧
    (([(0 : ℚ), 1]).sum = 1) ∧ (∀ p ∈ [(0 : ℚ), 1], 0 ≤ p) ∧
    sampleCategorical [0, 1] 0 = 0 := by
  refine ⟨by norm_num, ⟨le_rfl, by norm_num⟩, by norm_num, ?_, ?_⟩
  · intro p hp
    rcases (by simpa using hp : p = 0 ∨ p = 1) with rfl | rfl <;> norm_num
  · have ha : forceLastOne (cumsum [(0 : ℚ), 1]) = [0, 1] := by
      norm_num [cumsum, forceLastOne]
    unfold sampleCategorical
    rw [ha]
    norm_num [searchsortedLeft, bisectAux]

/-- C8 amended: for a probability vector summing to exactly 1 and a uniform
draw `u` in the open interval `(0, 1)`, the inverse-CDF sampler never returns
the index of a zero-probability category. (At `u = 0` a leading
zero-probability prefix is hit, see the counterexample.) -/
theorem zero_probability_never_drawn (probs : List ℚ) (u : ℚ) (k : ℕ)
    (hnn : ∀ p ∈ probs, 0 ≤ p) (hsum : probs.sum = 1) (hu0 : 0 < u) (hu1 : u < 1)
    (hk : k < probs.length) (hzero : probs.getD k 0 = 0) :
    sampleCategorical probs u ≠ k := by
  intro hr
  have hne : probs ≠ [] := by
    intro h
    rw [h] at hk
    simp at hk
  have hlen : (forceLastOne (cumsum probs)).length = probs.length := by
    rw [forceLastOne_length, cumsum_length]
  have hspec := searchsortedLeft_spec (forceLastOne (cumsum probs)) u
  unfold sampleCategorical at hr
  cases k with
  | zero =>
    have hklen : searchsortedLeft (forceLastOne (cumsum probs)) u <
        (forceLastOne (cumsum probs)).length := by
      rw [hr, hlen]
      exact hk
    have h2 := hspec.2.2 hklen
    rw [hr, forceLast_cumsum_getD probs hsum 0 hk] at h2
    have htake : (probs.take 1).sum = probs.getD 0 0 := by
      cases probs with
      | nil => simp at hk
      | cons p ps => simp
    rw [htake, hzero] at h2
    exact h2 hu0
  | succ j =>
    have hrpos : 0 < searchsortedLeft (forceLastOne (cumsum probs)) u := by
      rw [hr]
      omega
    have h1 := hspec.2.1 hrpos
    have hj : j < probs.length := by omega
    rw [hr, Nat.add_sub_cancel, forceLast_cumsum_getD probs hsum j hj] at h1
    have hklen : searchsortedLeft (forceLastOne (cumsum probs)) u <
        (forceLastOne (cumsum probs)).length := by
      rw [hr, hlen]
      exact hk
    have h2 := hspec.2.2 hklen
    rw [hr, forceLast_cumsum_getD probs hsum (j + 1) hk] at h2
    have hget : probs.get ⟨j + 1, hk⟩ = 0 := (getD_eq_get probs (j + 1) 0 hk).symm.trans hzero
    have hsum2 : (probs.take (j + 1)).sum + probs.get ⟨j + 1, hk⟩ < u := by
      rw [hget, add_zero]
      exact h1
    exact h2 (by rw [List.sum_take_succ _ _ hk]; simpa using hsum2)

/-- Witness for C8 amended at a concrete probability vector, zero-probability
index and interior uniform draw. -/
theorem zero_probability_never_drawn_witness :
    sampleCategorical [1/2, 0, 1/2] (1/4) ≠ 1 :=
  zero_probability_never_drawn [1/2, 0, 1/2] (1/4) 1
    (by
      intro p hp
      rcases (by simpa using hp : p = 1/2 ∨ p = 0 ∨ p = 1/2) with rfl | rfl | rfl <;> norm_num)
    (by norm_num) (by norm_num) (by norm_num) (by norm_num) (by norm_num)

theorem writeSeq_length {α : Type} :
    ∀ (ps : List ℕ) (l : List α) (f : ℕ → α) (j : ℕ),
      (writeSeq l ps f j).length = l.length := by
  intro ps
  induction ps with
  | nil => intro l f j; rfl
  | cons p rest ih =>
    intro l f j
    simp only [writeSeq]
    rw [ih]
    simp

theorem getD_writeSeq_not_mem {α : Type} :
    ∀ (ps : List ℕ) (l : List α) (f : ℕ → α) (j c : ℕ) (d : α), c ∉ ps →
      (writeSeq l ps f j).getD c d = l.getD c d := by
  intro ps
  induction ps with
  | nil => intro l f j c d _; rfl
  | cons p rest ih =>
    intro l f j c d hc
    simp only [writeSeq]
    rw [ih _ _ _ _ _ (fun h => hc (List.mem_cons.mpr (Or.inr h)))]
    exact getD_set_ne _ _ _ _ _ (fun h => hc (List.mem_cons.mpr (Or.inl h)))

/-- Simultaneous characterization of two scatters over the same (duplicate
free) position list: a position `c` receives the values of the SAME draw
index in both output lists. -/
theorem getD_writeSeq_pair {α β : Type} :
    ∀ (ps : List ℕ), ps.Nodup → ∀ (c : ℕ), c ∈ ps →
      ∀ (l₁ : List α) (l₂ : List β) (f : ℕ → α) (g : ℕ → β) (j : ℕ) (d₁ : α) (d₂ : β),
      c < l₁.length → c < l₂.length →
      ∃ k, (writeSeq l₁ ps f j).getD c d₁ = f (j + k) ∧
        (writeSeq l₂ ps g j).getD c d₂ = g (j + k) := by
  intro ps
  induction ps with
  | nil =>
    intro _ c hc
    simp at hc
  | cons p rest ih =>
    intro hnd c hc l₁ l₂ f g j d₁ d₂ h1 h2
    by_cases hcp : c = p
    · subst hcp
      have hrest : c ∉ rest := (List.nodup_cons.mp hnd).1
      refine ⟨0, ?_, ?_⟩
      · simp only [writeSeq]
        rw [getD_writeSeq_not_mem rest _ _ _ _ _ hrest, getD_set_self _ _ _ _ h1, add_zero]
      · simp only [writeSeq]
        rw [getD_writeSeq_not_mem rest _ _ _ _ _ hrest, getD_set_self _ _ _ _ h2, add_zero]
    · have hcrest : c ∈ rest := by
        rcases List.mem_cons.mp hc with h | h
        · exact absurd h hcp
        · exact h
      obtain ⟨k, hk1, hk2⟩ := ih (List.nodup_cons.mp hnd).2 c hcrest
        (l₁.set p (f j)) (l₂.set p (g j)) f g (j + 1) d₁ d₂
        (by simpa using h1) (by simpa using h2)
      refine ⟨k + 1, ?_, ?_⟩
      · simp only [writeSeq]
        rw [hk1]
        congr 1
        omega
      · simp only [writeSeq]
        rw [hk2]
        congr 1
        omega

theorem maskPositions_nodup (setupIdx : List ℕ) (s : ℕ) :
    (maskPositions setupIdx s).Nodup :=
  (List.nodup_range _).filter _

theorem mem_maskPositions (setupIdx : List ℕ) (s c : ℕ) :
    c ∈ maskPositions setupIdx s ↔ c < setupIdx.length ∧ setupIdx.getD c 0 = s := by
  simp [maskPositions, List.mem_filter, List.mem_range]

/-- The prefix of the per-setup loop: the fold over setup indices `0, …, m-1`. -/
def scatterLoop (cfg : SimulationConfig) (u : ℕ → ℚ) (setupIdx : List ℕ) (m : ℕ) :
    EngineState :=
  (List.range m).foldl (fun st s => scatterSetup cfg u setupIdx s st)
    ⟨List.replicate setupIdx.length 0, List.replicate setupIdx.length 0, setupIdx.length⟩

theorem scatterAll_eq_loop (cfg : SimulationConfig) (u : ℕ → ℚ) (setupIdx : List ℕ) :
    scatterAll cfg u setupIdx = scatterLoop cfg u setupIdx cfg.setups.length := rfl

theorem scatterLoop_succ (cfg : SimulationConfig) (u : ℕ → ℚ) (setupIdx : List ℕ) (m : ℕ) :
    scatterLoop cfg u setupIdx (m + 1) =
      scatterSetup cfg u setupIdx m (scatterLoop cfg u setupIdx m) := by
  unfold scatterLoop
  rw [List.range_succ, List.foldl_append, List.foldl_cons, List.foldl_nil]

/-- Consistency of one cell of the scatter output: the recorded scenario index
is in range for the cell's drawn setup, and the recorded raw return is exactly
that scenario's `return_pct`. -/
def cellGood (cfg : SimulationConfig) (setupIdx : List ℕ) (st : EngineState) (c : ℕ) :
    Prop :=
  st.scenario_indices.getD c 0 <
    (cfg.setups.getD (setupIdx.getD c 0) default).scenarios.length ∧
  st.period_returns.getD c 0 =
    ((cfg.setups.getD (setupIdx.getD c 0) default).scenarios.getD
      (st.scenario_indices.getD c 0) default).return_pct

theorem scatterLoop_spec (cfg : SimulationConfig) (u : ℕ → ℚ) (setupIdx : List ℕ)
    (hu : ∀ n, u n < 1)
    (hscen : ∀ stp ∈ cfg.setups, stp.scenarios ≠ []) :
    ∀ m, m ≤ cfg.setups.length →
      (scatterLoop cfg u setupIdx m).scenario_indices.length = setupIdx.length ∧
      (scatterLoop cfg u setupIdx m).period_returns.length = setupIdx.length ∧
      ∀ c, c < setupIdx.length → setupIdx.getD c 0 < m →
        cellGood cfg setupIdx (scatterLoop cfg u setupIdx m) c := by
  intro m
  induction m with
  | zero =>
    intro _
    refine ⟨by simp [scatterLoop], by simp [scatterLoop], ?_⟩
    intro c _ h0
    omega
  | succ m ih =>
    intro hm1
    obtain ⟨hl1, hl2, hgood⟩ := ih (by omega)
    rw [scatterLoop_succ]
    have hmS : m < cfg.setups.length := by omega
    have hstp : cfg.setups.getD m default ∈ cfg.setups := getD_mem _ _ _ hmS
    have hprobs_ne : scenarioProbsOf (cfg.setups.getD m default) ≠ [] := by
      intro hmap
      exact hscen _ hstp (List.map_eq_nil.mp hmap)
    have hprobs_len : (scenarioProbsOf (cfg.setups.getD m default)).length =
        (cfg.setups.getD m default).scenarios.length := by
      simp [scenarioProbsOf]
    by_cases hmask : (maskPositions setupIdx m).length = 0
    · rw [scatterSetup, if_pos hmask]
      refine ⟨hl1, hl2, ?_⟩
      intro c hc hlt
      rcases Nat.lt_succ_iff_lt_or_eq.mp hlt with h | h
      · exact hgood c hc h
      · exfalso
        have hmem : c ∈ maskPositions setupIdx m := (mem_maskPositions _ _ _).mpr ⟨hc, h⟩
        rw [List.length_eq_zero.mp hmask] at hmem
        simp at hmem
    · rw [scatterSetup, if_neg hmask]
      refine ⟨by simp only [writeSeq_length]; exact hl1,
        by simp only [writeSeq_length]; exact hl2, ?_⟩
      intro c hc hlt
      rcases Nat.lt_succ_iff_lt_or_eq.mp hlt with h | h
      · have hnotmem : c ∉ maskPositions setupIdx m := by
          intro hmem
          have := ((mem_maskPositions _ _ _).mp hmem).2
          omega
        have hg := hgood c hc h
        unfold cellGood at hg ⊢
        simp only [getD_writeSeq_not_mem _ _ _ _ _ _ hnotmem]
        exact hg
      · have hmem : c ∈ maskPositions setupIdx m := (mem_maskPositions _ _ _).mpr ⟨hc, h⟩
        obtain ⟨k, hk1, hk2⟩ := getD_writeSeq_pair (maskPositions setupIdx m)
          (maskPositions_nodup _ _) c hmem
          (scatterLoop cfg u setupIdx m).scenario_indices
          (scatterLoop cfg u setupIdx m).period_returns
          (fun j => sampleCategorical (scenarioProbsOf (cfg.setups.getD m default))
            (u ((scatterLoop cfg u setupIdx m).draw_offset + j)))
          (fun j => (scenarioReturnsOf (cfg.setups.getD m default)).getD
            (sampleCategorical (scenarioProbsOf (cfg.setups.getD m default))
              (u ((scatterLoop cfg u setupIdx m).draw_offset + j))) 0)
          0 0 0 (by rw [hl1]; exact hc) (by rw [hl2]; exact hc)
        have hdlt : sampleCategorical (scenarioProbsOf (cfg.setups.getD m default))
            (u ((scatterLoop cfg u setupIdx m).draw_offset + (0 + k))) <
            (cfg.setups.getD m default).scenarios.length := by
          rw [← hprobs_len]
          exact sampleCategorical_lt_length _ _ hprobs_ne (hu _)
        unfold cellGood
        simp only []
        rw [h]
        constructor
        · rw [hk1]
          exact hdlt
        · rw [hk2, hk1]
          exact getD_map_lt Scenario.return_pct _ _ default _ hdlt

theorem scatterAll_spec (cfg : SimulationConfig) (u : ℕ → ℚ) (setupIdx : List ℕ)
    (hu : ∀ n, u n < 1)
    (hscen : ∀ stp ∈ cfg.setups, stp.scenarios ≠ []) :
    (scatterAll cfg u setupIdx).scenario_indices.length = setupIdx.length ∧
    (scatterAll cfg u setupIdx).period_returns.length = setupIdx.length ∧
    ∀ c, c < setupIdx.length → setupIdx.getD c 0 < cfg.setups.length →
      cellGood cfg setupIdx (scatterAll cfg u setupIdx) c := by
  rw [scatterAll_eq_loop]
  exact scatterLoop_spec cfg u setupIdx hu hscen cfg.setups.length le_rfl

theorem rangeMap_getD {α : Type} (n : ℕ) (f : ℕ → α) (i : ℕ) (d : α) (h : i < n) :
    ((List.range n).map f).getD i d = f i := by
  rw [getD_map_lt f _ i 0 d (by simpa using h)]
  congr 1
  rw [getD_eq_get _ _ _ (by simpa using h)]
  simp

theorem setupIdxFlat_length (cfg : SimulationConfig) (u : ℕ → ℚ) :
    (setupIdxFlat cfg u).length = cfg.num_simulations * cfg.num_periods := by
  simp [setupIdxFlat]

theorem setupIdxFlat_lt (cfg : SimulationConfig) (u : ℕ → ℚ) (hv : cfg.Valid)
    (hu : ∀ n, u n < 1) (c : ℕ) (hc : c < cfg.num_simulations * cfg.num_periods) :
    (setupIdxFlat cfg u).getD c 0 < cfg.setups.length := by
  unfold setupIdxFlat
  rw [rangeMap_getD _ _ c _ hc]
  have hlen : (setupProbsOf cfg).length = cfg.setups.length := by simp [setupProbsOf]
  rw [← hlen]
  apply sampleCategorical_lt_length
  · intro hmap
    exact hv.1 (List.map_eq_nil.mp hmap)
  · exact hu c

theorem cell_lt (i j N T : ℕ) (hi : i < N) (hj : j < T) : i * T + j < N * T := by
  have h1 : i * T + j < (i + 1) * T := by
    have : (i + 1) * T = i * T + T := by ring
    omega
  exact lt_of_lt_of_le h1 (Nat.mul_le_mul_right T hi)

theorem config_scenarios_ne_nil (cfg : SimulationConfig) (hv : cfg.Valid) :
    ∀ stp ∈ cfg.setups, stp.scenarios ≠ [] := by
  intro stp hstp hnil
  have h2 := (hv.2.2.2.2.2.2 stp hstp).2.2.1
  rw [hnil] at h2
  simp at h2

theorem runSimulation_setup_getD (cfg : SimulationConfig) (u : ℕ → ℚ) (i j : ℕ)
    (hi : i < cfg.num_simulations) (hj : j < cfg.num_periods) :
    ((runSimulation cfg u).setup_indices.getD i []).getD j 0 =
      (setupIdxFlat cfg u).getD (i * cfg.num_periods + j) 0 := by
  unfold runSimulation
  dsimp only
  rw [rangeMap_getD _ _ i _ hi, rangeMap_getD _ _ j _ hj]

theorem runSimulation_scen_getD (cfg : SimulationConfig) (u : ℕ → ℚ) (i j : ℕ)
    (hi : i < cfg.num_simulations) (hj : j < cfg.num_periods) :
    ((runSimulation cfg u).scenario_indices.getD i []).getD j 0 =
      (scatterAll cfg u (setupIdxFlat cfg u)).scenario_indices.getD
        (i * cfg.num_periods + j) 0 := by
  unfold runSimulation
  dsimp only
  rw [rangeMap_getD _ _ i _ hi, rangeMap_getD _ _ j _ hj]

theorem runSimulation_rets_getD (cfg : SimulationConfig) (u : ℕ → ℚ) (i j : ℕ)
    (hi : i < cfg.num_simulations) (hj : j < cfg.num_periods) :
    ((runSimulation cfg u).period_returns.getD i []).getD j 0 =
      (scatterAll cfg u (setupIdxFlat cfg u)).period_returns.getD
        (i * cfg.num_periods + j) 0 := by
  unfold runSimulation
  dsimp only
  rw [rangeMap_getD _ _ i _ hi, rangeMap_getD _ _ j _ hj]

theorem runSimulation_pv_getD (cfg : SimulationConfig) (u : ℕ → ℚ) (i j : ℕ)
    (hi : i < cfg.num_simulations) (hj : j < cfg.num_periods + 1) :
    ((runSimulation cfg u).portfolio_values.getD i []).getD j 0 =
      cfg.initial_capital * ((List.range j).map (fun t =>
        1 + (cfg.setups.map cfg.get_effective_kelly).getD
              ((setupIdxFlat cfg u).getD (i * cfg.num_periods + t) 0) 0 *
          (scatterAll cfg u (setupIdxFlat cfg u)).period_returns.getD
            (i * cfg.num_periods + t) 0)).prod := by
  unfold runSimulation
  dsimp only
  rw [rangeMap_getD _ _ i _ hi, rangeMap_getD _ _ j _ hj]

/-! ## Claim theorems: engine -/

/-- C2: in every cell `(i, j)` of the simulation output, the recorded raw
return equals the `return_pct` of scenario number `scenario_indices[i][j]` of
setup number `setup_indices[i][j]`, and both recorded indices are in range:
the index matrices and the raw-return matrix are mutually consistent. -/
theorem run_simulation_matrices_consistent (cfg : SimulationConfig) (u : ℕ → ℚ)
    (hv : cfg.Valid) (hu : ∀ n, 0 ≤ u n ∧ u n < 1) (i j : ℕ)
    (hi : i < cfg.num_simulations) (hj : j < cfg.num_periods) :
    ((runSimulation cfg u).setup_indices.getD i []).getD j 0 < cfg.setups.length ∧
    ((runSimulation cfg u).scenario_indices.getD i []).getD j 0 <
      (cfg.setups.getD (((runSimulation cfg u).setup_indices.getD i []).getD j 0)
        default).scenarios.length ∧
    ((runSimulation cfg u).period_returns.getD i []).getD j 0 =
      ((cfg.setups.getD (((runSimulation cfg u).setup_indices.getD i []).getD j 0)
        default).scenarios.getD
          (((runSimulation cfg u).scenario_indices.getD i []).getD j 0)
          default).return_pct := by
  have hc : i * cfg.num_periods + j < cfg.num_simulations * cfg.num_periods :=
    cell_lt i j _ _ hi hj
  have hflat := setupIdxFlat_lt cfg u hv (fun n => (hu n).2) _ hc
  have hspec := scatterAll_spec cfg u (setupIdxFlat cfg u) (fun n => (hu n).2)
    (config_scenarios_ne_nil cfg hv)
  have hgood := hspec.2.2 (i * cfg.num_periods + j)
    (by rw [setupIdxFlat_length]; exact hc) hflat
  rw [runSimulation_setup_getD cfg u i j hi hj, runSimulation_scen_getD cfg u i j hi hj,
    runSimulation_rets_getD cfg u i j hi hj]
  exact ⟨hflat, hgood.1, hgood.2⟩

/-- Concrete inputs for the engine counterexample and witnesses: a single
certain setup whose only reachable scenario loses 90%, run with the
(perfectly legal) default Kelly fraction 2. -/
def setupRisky : Setup := ⟨"Risky", 1, [⟨"Crash", 1, -9/10⟩, ⟨"Never", 0, 1/10⟩], none⟩

def cfgRisky : SimulationConfig := ⟨[setupRisky], 1, 1, 100, 2, some 7⟩

def halfStream : ℕ → ℚ := fun _ => 1/2

def rngHalf : Option ℤ → ℕ → ℚ := fun _ _ => 1/2

theorem setupRisky_valid : Setup.Valid setupRisky := by
  refine ⟨by decide, ⟨by norm_num [setupRisky], by norm_num [setupRisky]⟩,
    by norm_num [setupRisky], ?_, ?_, ?_⟩
  · norm_num [setupRisky, npIsClose, probSum, abs_le]
  · simp [setupRisky, kellyOverrideOk]
  · intro sc hsc
    simp only [setupRisky, List.mem_cons, List.not_mem_nil, or_false] at hsc
    rcases hsc with rfl | rfl
    · exact ⟨⟨by norm_num, by norm_num⟩, by norm_num, by decide⟩
    · exact ⟨⟨by norm_num, by norm_num⟩, by norm_num, by decide⟩

theorem cfgRisky_valid : SimulationConfig.Valid cfgRisky := by
  refine ⟨by simp [cfgRisky], ?_, by norm_num [cfgRisky], by norm_num [cfgRisky],
    by norm_num [cfgRisky], by norm_num [cfgRisky], ?_⟩
  · norm_num [cfgRisky, setupRisky, npIsClose, setupProbSum, abs_le]
  · intro stp hstp
    have h : stp = setupRisky := by simpa [cfgRisky] using hstp
    rw [h]
    exact setupRisky_valid

theorem halfStream_unit : ∀ n, 0 ≤ halfStream n ∧ halfStream n < 1 := by
  intro n
  constructor <;> norm_num [halfStream]

/-- Witness for C2 at a concrete config, stream and cell. -/
theorem run_simulation_matrices_consistent_witness :
    SimulationConfig.Valid cfgRisky ∧ (∀ n, 0 ≤ halfStream n ∧ halfStream n < 1) ∧
    (((runSimulation cfgRisky halfStream).setup_indices.getD 0 []).getD 0 0 <
        cfgRisky.setups.length ∧
      ((runSimulation cfgRisky halfStream).scenario_indices.getD 0 []).getD 0 0 <
        (cfgRisky.setups.getD
          (((runSimulation cfgRisky halfStream).setup_indices.getD 0 []).getD 0 0)
          default).scenarios.length ∧
      ((runSimulation cfgRisky halfStream).period_returns.getD 0 []).getD 0 0 =
        ((cfgRisky.setups.getD
          (((runSimulation cfgRisky halfStream).setup_indices.getD 0 []).getD 0 0)
          default).scenarios.getD
            (((runSimulation cfgRisky halfStream).scenario_indices.getD 0 []).getD 0 0)
            default).return_pct) :=
  ⟨cfgRisky_valid, halfStream_unit,
    run_simulation_matrices_consistent cfgRisky halfStream cfgRisky_valid halfStream_unit
      0 0 (by norm_num [cfgRisky]) (by norm_num [cfgRisky])⟩

/-- C3: `run_simulation` is a deterministic function of its config when a seed
is present — two invocations on (bit-)identical configs yield bit-identical
output matrices.  In this embedding the seeded generator is a fixed stream
determined by the seed, so the result is a pure function of the config. -/
theorem run_simulation_deterministic (rng : Option ℤ → ℕ → ℚ)
    (cfg₁ cfg₂ : SimulationConfig) (s : ℤ) (hseed : cfg₁.seed = some s)
    (hcfg : cfg₁ = cfg₂) :
    (runSimulationSeeded rng cfg₁).portfolio_values =
      (runSimulationSeeded rng cfg₂).portfolio_values ∧
    (runSimulationSeeded rng cfg₁).period_returns =
      (runSimulationSeeded rng cfg₂).period_returns ∧
    (runSimulationSeeded rng cfg₁).setup_indices =
      (runSimulationSeeded rng cfg₂).setup_indices ∧
    (runSimulationSeeded rng cfg₁).scenario_indices =
      (runSimulationSeeded rng cfg₂).scenario_indices := by
  subst hcfg
  exact ⟨rfl, rfl, rfl, rfl⟩

/-- Witness for C3 at a concrete generator family and seeded config. -/
theorem run_simulation_deterministic_witness :
    (runSimulationSeeded rngHalf cfgRisky).portfolio_values =
      (runSimulationSeeded rngHalf cfgRisky).portfolio_values ∧
    (runSimulationSeeded rngHalf cfgRisky).period_returns =
      (runSimulationSeeded rngHalf cfgRisky).period_returns ∧
    (runSimulationSeeded rngHalf cfgRisky).setup_indices =
      (runSimulationSeeded rngHalf cfgRisky).setup_indices ∧
    (runSimulationSeeded rngHalf cfgRisky).scenario_indices =
      (runSimulationSeeded rngHalf cfgRisky).scenario_indices :=
  run_simulation_deterministic rngHalf cfgRisky cfgRisky 7 rfl rfl

/-- C4 counterexample: all scenario returns exceed −100% and the config is
valid, yet a portfolio value goes negative, because the effective Kelly
fraction 2 turns the −90% scenario into a −180% scaled move. -/
theorem portfolio_values_positive_counterexample :
    SimulationConfig.Valid cfgRisky ∧
    (∀ stp ∈ cfgRisky.setups, ∀ sc ∈ stp.scenarios, -1 < sc.return_pct) ∧
    (∀ n, 0 ≤ halfStream n ∧ halfStream n < 1) ∧
    ((runSimulation cfgRisky halfStream).portfolio_values.getD 0 []).getD 1 0 < 0 := by
  refine ⟨cfgRisky_valid, ?_, halfStream_unit, ?_⟩
  · intro stp hstp sc hsc
    have h : stp = setupRisky := by simpa [cfgRisky] using hstp
    subst h
    simp only [setupRisky, List.mem_cons, List.not_mem_nil, or_false] at hsc
    rcases hsc with rfl | rfl <;> norm_num
  · have hpv : ((runSimulation cfgRisky halfStream).portfolio_values.getD 0 []).getD 1 0 =
        -80 := by
      norm_num [runSimulation, setupIdxFlat, scatterAll, scatterSetup, maskPositions,
        writeSeq, sampleCategorical, searchsortedLeft, bisectAux, cumsum, forceLastOne,
        scenarioProbsOf, scenarioReturnsOf, setupProbsOf, cfgRisky, setupRisky, halfStream,
        SimulationConfig.get_effective_kelly, List.range_succ]
    rw [hpv]
    norm_num

/-- C4 amended: every portfolio value is strictly positive provided every
per-cell growth factor is, i.e. provided `1 + effective_kelly(s) * r > 0` for
every setup `s` and scenario return `r` (the scenario invariant `r > −1`
alone guarantees this only when the effective Kelly fraction is ≤ 1). -/
theorem portfolio_values_positive (cfg : SimulationConfig) (u : ℕ → ℚ) (hv : cfg.Valid)
    (hu : ∀ n, 0 ≤ u n ∧ u n < 1)
    (hk : ∀ stp ∈ cfg.setups, ∀ sc ∈ stp.scenarios,
      0 < 1 + cfg.get_effective_kelly stp * sc.return_pct)
    (i j : ℕ) (hi : i < cfg.num_simulations) (hj : j < cfg.num_periods + 1) :
    0 < ((runSimulation cfg u).portfolio_values.getD i []).getD j 0 := by
  rw [runSimulation_pv_getD cfg u i j hi hj]
  apply mul_pos hv.2.2.2.2.1
  apply List.prod_pos
  intro x hx
  obtain ⟨t, ht, rfl⟩ := List.mem_map.mp hx
  have htT : t < cfg.num_periods := by
    have h1 := List.mem_range.mp ht
    omega
  have hcell : i * cfg.num_periods + t < cfg.num_simulations * cfg.num_periods :=
    cell_lt i t _ _ hi htT
  have hflat := setupIdxFlat_lt cfg u hv (fun n => (hu n).2) _ hcell
  have hspec := scatterAll_spec cfg u (setupIdxFlat cfg u) (fun n => (hu n).2)
    (config_scenarios_ne_nil cfg hv)
  have hgood := hspec.2.2 (i * cfg.num_periods + t)
    (by rw [setupIdxFlat_length]; exact hcell) hflat
  have hkelly : (cfg.setups.map cfg.get_effective_kelly).getD
      ((setupIdxFlat cfg u).getD (i * cfg.num_periods + t) 0) 0 =
      cfg.get_effective_kelly
        (cfg.setups.getD ((setupIdxFlat cfg u).getD (i * cfg.num_periods + t) 0) default) :=
    getD_map_lt _ _ _ default _ hflat
  rw [hkelly, hgood.2]
  exact hk _ (getD_mem _ _ _ hflat) _ (getD_mem _ _ _ hgood.1)

/-- Witness for C4 amended: a valid config with Kelly fraction 1/2 (so all
growth factors are positive) and a concrete cell. -/
def setupMild : Setup := ⟨"Mild", 1, [⟨"Win", 3/5, 1/5⟩, ⟨"Loss", 2/5, -1/2⟩], none⟩

def cfgMild : SimulationConfig := ⟨[setupMild], 1, 1, 100, 1/2, some 3⟩

theorem setupMild_valid : Setup.Valid setupMild := by
  refine ⟨by decide, ⟨by norm_num [setupMild], by norm_num [setupMild]⟩,
    by norm_num [setupMild], ?_, ?_, ?_⟩
  · norm_num [setupMild, npIsClose, probSum, abs_le]
  · simp [setupMild, kellyOverrideOk]
  · intro sc hsc
    simp only [setupMild, List.mem_cons, List.not_mem_nil, or_false] at hsc
    rcases hsc with rfl | rfl
    · exact ⟨⟨by norm_num, by norm_num⟩, by norm_num, by decide⟩
    · exact ⟨⟨by norm_num, by norm_num⟩, by norm_num, by decide⟩

theorem cfgMild_valid : SimulationConfig.Valid cfgMild := by
  refine ⟨by simp [cfgMild], ?_, by norm_num [cfgMild], by norm_num [cfgMild],
    by norm_num [cfgMild], by norm_num [cfgMild], ?_⟩
  · norm_num [cfgMild, setupMild, npIsClose, setupProbSum, abs_le]
  · intro stp hstp
    have h : stp = setupMild := by simpa [cfgMild] using hstp
    rw [h]
    exact setupMild_valid

theorem portfolio_values_positive_witness :
    SimulationConfig.Valid cfgMild ∧ (∀ n, 0 ≤ halfStream n ∧ halfStream n < 1) ∧
    (∀ stp ∈ cfgMild.setups, ∀ sc ∈ stp.scenarios,
      0 < 1 + cfgMild.get_effective_kelly stp * sc.return_pct) ∧
    0 < ((runSimulation cfgMild halfStream).portfolio_values.getD 0 []).getD 1 0 := by
  have hk : ∀ stp ∈ cfgMild.setups, ∀ sc ∈ stp.scenarios,
      0 < 1 + cfgMild.get_effective_kelly stp * sc.return_pct := by
    intro stp hstp sc hsc
    have h : stp = setupMild := by simpa [cfgMild] using hstp
    subst h
    simp only [setupMild, List.mem_cons, List.not_mem_nil, or_false] at hsc
    rcases hsc with rfl | rfl <;>
      norm_num [SimulationConfig.get_effective_kelly, setupMild, cfgMild]
  exact ⟨cfgMild_valid, halfStream_unit, hk,
    portfolio_values_positive cfgMild halfStream cfgMild_valid halfStream_unit hk 0 1
      (by norm_num [cfgMild]) (by norm_num [cfgMild])⟩

/-! ## Analytics (`analytics.py`): the longest-drawdown-streak helper

`_max_consecutive_true` computes, per row of a boolean matrix, the length of
the longest unbroken run of `True`, via `np.diff` of the `int8` cast, the
`np.where(d == ±1)` start/end positions (with boundary fixups), and
`(ends - starts).max()`. -/

/-- `row.astype(np.int8)` for one cell. -/
def boolInt (b : Bool) : ℤ := if b then 1 else 0

/-- `np.diff(l)`: `d[i] = l[i+1] - l[i]`. -/
def diffZ (l : List ℤ) : List ℤ := List.zipWith (fun a b => a - b) l.tail l

/-- `np.where(l == v)[0]`: the ascending indices at which `l` holds `v`. -/
def whereEqZ (l : List ℤ) (v : ℤ) : List ℕ :=
  (List.range l.length).filter (fun i => decide (l.getD i 0 = v))

/-- `starts = np.where(d == 1)[0] + 1`, prepending `0` when `row[0]` holds. -/
def rowStarts (row : List Bool) : List ℕ :=
  (if row.headD false then [0] else []) ++
    (whereEqZ (diffZ (row.map boolInt)) 1).map (fun i => i + 1)

/-- `ends = np.where(d == -1)[0] + 1`, appending `n_cols` when `row[-1]` holds. -/
def rowEnds (row : List Bool) : List ℕ :=
  (whereEqZ (diffZ (row.map boolInt)) (-1)).map (fun i => i + 1) ++
    (if row.getLastD false then [row.length] else [])

/-- `lengths = ends - starts` (as int64 values). -/
def rowRunLengths (row : List Bool) : List ℤ :=
  List.zipWith (fun (e s : ℕ) => (e : ℤ) - (s : ℤ)) (rowEnds row) (rowStarts row)

/-- `.max()` of a nonempty integer array. -/
def zmax : List ℤ → ℤ
  | [] => 0
  | x :: xs => xs.foldl max x

/-- The per-row body of `_max_consecutive_true`: rows with no `True` keep the
`np.zeros` value 0; otherwise, when both position arrays are nonempty, the
result is the maximum run length. -/
def maxConsecRow (row : List Bool) : ℤ :=
  if row.any id then
    if 0 < (rowStarts row).length ∧ 0 < (rowEnds row).length then zmax (rowRunLengths row)
    else 0
  else 0

/-- `_max_consecutive_true`: per-row longest run of `True`. -/
def maxConsecutiveTrue (arr : List (List Bool)) : List ℤ := arr.map maxConsecRow

/-- Reference definition, following the spec's words: a linear scan tracking
the current and best run of `True` cells. -/
def longestRunAux : List Bool → ℕ → ℕ → ℕ
  | [], cur, best => max cur best
  | b :: rest, cur, best =>
    if b then longestRunAux rest (cur + 1) best else longestRunAux rest 0 (max cur best)

/-- Reference definition: the length of the longest unbroken run of `True`. -/
def longestTrueRun (row : List Bool) : ℕ := longestRunAux row 0 0

/-- The list of maximal `True`-run lengths of a row, with a partial run of
length `c` already in progress. -/
def runsAux : List Bool → ℕ → List ℕ
  | [], 0 => []
  | [], c + 1 => [c + 1]
  | true :: r, c => runsAux r (c + 1)
  | false :: r, 0 => runsAux r 0
  | false :: r, c + 1 => (c + 1) :: runsAux r 0

/-- The list of maximal `True`-run lengths of a row, in order. -/
def runsList (row : List Bool) : List ℕ := runsAux row 0

theorem longestRunAux_eq :
    ∀ (l : List Bool) (c b : ℕ), longestRunAux l c b = max b ((runsAux l c).foldr max 0) := by
  intro l
  induction l with
  | nil =>
    intro c b
    cases c with
    | zero =>
      show max 0 b = max b ((runsAux [] 0).foldr max 0)
      simp only [runsAux, List.foldr_nil]
      omega
    | succ n =>
      show max (n + 1) b = max b ((runsAux [] (n + 1)).foldr max 0)
      simp only [runsAux, List.foldr_cons, List.foldr_nil]
      omega
  | cons hd rest ih =>
    intro c b
    cases hd with
    | true =>
      have hstep : longestRunAux (true :: rest) c b = longestRunAux rest (c + 1) b := by
        simp [longestRunAux]
      rw [hstep, ih (c + 1) b]
      rfl
    | false =>
      have hstep : longestRunAux (false :: rest) c b = longestRunAux rest 0 (max c b) := by
        simp [longestRunAux]
      rw [hstep, ih 0 (max c b)]
      cases c with
      | zero =>
        show max (max 0 b) ((runsAux rest 0).foldr max 0) =
          max b ((runsAux (false :: rest) 0).foldr max 0)
        simp only [runsAux]
        omega
      | succ n =>
        show max (max (n + 1) b) ((runsAux rest 0).foldr max 0) =
          max b ((runsAux (false :: rest) (n + 1)).foldr max 0)
        simp only [runsAux, List.foldr_cons]
        omega

theorem runsAux_pos_ne_nil : ∀ (r : List Bool) (c : ℕ), runsAux r (c + 1) ≠ [] := by
  intro r
  induction r with
  | nil => intro c; simp [runsAux]
  | cons hd rest ih =>
    intro c
    cases hd with
    | true => exact ih (c + 1)
    | false => simp [runsAux]

theorem runsAux_shift : ∀ (r : List Bool) (c : ℕ),
    runsAux r (c + 2) = ((runsAux r (c + 1)).headD 0 + 1) :: (runsAux r (c + 1)).tail := by
  intro r
  induction r with
  | nil => intro c; simp [runsAux]
  | cons hd rest ih =>
    intro c
    cases hd with
    | true =>
      show runsAux rest (c + 3) = ((runsAux rest (c + 2)).headD 0 + 1) :: (runsAux rest (c + 2)).tail
      exact ih (c + 1)
    | false => simp [runsAux]

theorem runsList_eq_nil_iff : ∀ (r : List Bool), runsList r = [] ↔ r.any id = false := by
  intro r
  induction r with
  | nil => simp [runsList, runsAux]
  | cons hd rest ih =>
    cases hd with
    | true =>
      simp only [runsList, runsAux, List.any_cons, id, Bool.true_or]
      exact ⟨fun h => absurd h (runsAux_pos_ne_nil rest 0), fun h => by simp at h⟩
    | false =>
      simp only [runsList, runsAux, List.any_cons, id, Bool.false_or]
      exact ih

theorem filter_map_comm {α β : Type} (f : α → β) (p : β → Bool) :
    ∀ l : List α, (l.map f).filter p = (l.filter (fun a => p (f a))).map f := by
  intro l
  induction l with
  | nil => rfl
  | cons a as ih =>
    simp only [List.map_cons, List.filter_cons]
    by_cases h : p (f a) = true
    · rw [if_pos h, if_pos h, List.map_cons, ih]
    · rw [if_neg h, if_neg h, ih]

theorem whereEqZ_cons (x : ℤ) (xs : List ℤ) (v : ℤ) :
    whereEqZ (x :: xs) v =
      (if x = v then [0] else []) ++ (whereEqZ xs v).map (fun i => i + 1) := by
  unfold whereEqZ
  rw [List.length_cons, List.range_succ_eq_map, List.filter_cons,
    filter_map_comm Nat.succ _ (List.range xs.length)]
  have hpred : (List.range xs.length).filter
      (fun a => decide ((x :: xs).getD (Nat.succ a) 0 = v)) =
      (List.range xs.length).filter (fun i => decide (xs.getD i 0 = v)) := by
    apply List.filter_congr
    intro a _
    simp
  rw [hpred]
  have hmap : ((List.range xs.length).filter
      (fun i => decide (xs.getD i 0 = v))).map Nat.succ =
      ((List.range xs.length).filter (fun i => decide (xs.getD i 0 = v))).map
        (fun i => i + 1) := by
    simp [Nat.succ_eq_add_one]
  rw [hmap]
  by_cases hx : x = v
  · rw [if_pos (by simpa using hx), if_pos hx]
    rfl
  · rw [if_neg (by simpa using hx), if_neg hx]
    rfl

theorem diffZ_cons (x y : ℤ) (xs : List ℤ) :
    diffZ (x :: y :: xs) = (y - x) :: diffZ (y :: xs) := rfl

theorem diff_boolInt_false (l : List Bool) (hd : Bool) (tl : List Bool) (h : l = hd :: tl) :
    diffZ ((false :: l).map boolInt) = boolInt hd :: diffZ (l.map boolInt) := by
  subst h
  simp only [List.map_cons]
  rw [show boolInt false = 0 from rfl, diffZ_cons, sub_zero]

theorem diff_boolInt_true (l : List Bool) (hd : Bool) (tl : List Bool) (h : l = hd :: tl) :
    diffZ ((true :: l).map boolInt) = (boolInt hd - 1) :: diffZ (l.map boolInt) := by
  subst h
  simp only [List.map_cons]
  rw [show boolInt true = 1 from rfl, diffZ_cons]

theorem rowStarts_true (l : List Bool) :
    rowStarts (true :: l) =
      0 :: (whereEqZ (diffZ ((true :: l).map boolInt)) 1).map (fun i => i + 1) := by
  simp [rowStarts]

theorem S_false (l : List Bool) : rowStarts (false :: l) = (rowStarts l).map (fun i => i + 1) := by
  cases l with
  | nil => rfl
  | cons hd tl =>
    unfold rowStarts
    rw [diff_boolInt_false _ hd tl rfl, whereEqZ_cons]
    simp only [List.headD_cons]
    cases hd with
    | true => simp [boolInt, List.map_map, Function.comp]
    | false => simp [boolInt, List.map_map, Function.comp]

theorem E_false (l : List Bool) : rowEnds (false :: l) = (rowEnds l).map (fun i => i + 1) := by
  cases l with
  | nil => rfl
  | cons hd tl =>
    unfold rowEnds
    rw [diff_boolInt_false _ hd tl rfl, whereEqZ_cons]
    have hbi : ¬ (boolInt hd = -1) := by cases hd <;> simp [boolInt]
    rw [if_neg hbi]
    simp only [List.getLastD_cons, List.nil_append, List.map_map, List.map_append,
      List.length_cons]
    cases htl : (hd :: tl).getLastD false with
    | true =>
      rw [List.getLastD_cons] at htl
      rw [htl]
      simp [Function.comp]
    | false =>
      rw [List.getLastD_cons] at htl
      rw [htl]
      simp [Function.comp]

theorem S_true_false (tl : List Bool) :
    rowStarts (true :: false :: tl) = 0 :: (rowStarts (false :: tl)).map (fun i => i + 1) := by
  rw [rowStarts_true, diff_boolInt_true _ false tl rfl, whereEqZ_cons]
  rw [if_neg (show ¬ (boolInt false - 1 = 1) from by simp [boolInt])]
  unfold rowStarts
  simp only [List.headD_cons, Bool.false_eq_true, List.nil_append, List.map_map]
  simp [Function.comp]

theorem S_true_true (tl : List Bool) :
    rowStarts (true :: true :: tl) =
      0 :: ((rowStarts (true :: tl)).tail).map (fun i => i + 1) := by
  rw [rowStarts_true, diff_boolInt_true _ true tl rfl, whereEqZ_cons]
  rw [if_neg (show ¬ (boolInt true - 1 = 1) from by simp [boolInt])]
  rw [rowStarts_true]
  simp [List.map_map, Function.comp]

theorem E_true_false (tl : List Bool) :
    rowEnds (true :: false :: tl) = 1 :: (rowEnds (false :: tl)).map (fun i => i + 1) := by
  unfold rowEnds
  rw [diff_boolInt_true _ false tl rfl, whereEqZ_cons]
  rw [if_pos (show boolInt false - 1 = -1 from by simp [boolInt])]
  simp only [List.getLastD_cons, List.map_append, List.map_map, List.length_cons,
    List.cons_append, List.nil_append, List.map_cons]
  cases htl : (false :: tl).getLastD false with
  | true =>
    rw [List.getLastD_cons] at htl
    rw [htl]
    simp [Function.comp]
  | false =>
    rw [List.getLastD_cons] at htl
    rw [htl]
    simp [Function.comp]

theorem E_true_true (tl : List Bool) :
    rowEnds (true :: true :: tl) = (rowEnds (true :: tl)).map (fun i => i + 1) := by
  unfold rowEnds
  rw [diff_boolInt_true _ true tl rfl, whereEqZ_cons]
  rw [if_neg (show ¬ (boolInt true - 1 = -1) from by simp [boolInt])]
  simp only [List.getLastD_cons, List.map_append, List.map_map, List.length_cons,
    List.nil_append]
  cases htl : (true :: tl).getLastD false with
  | true =>
    rw [List.getLastD_cons] at htl
    rw [htl]
    simp [Function.comp]
  | false =>
    rw [List.getLastD_cons] at htl
    rw [htl]
    simp [Function.comp]

theorem zipWith_shift_cancel (E S : List ℕ) :
    List.zipWith (fun (e s : ℕ) => (e : ℤ) - (s : ℤ)) (E.map (fun i => i + 1))
      (S.map (fun i => i + 1)) =
    List.zipWith (fun (e s : ℕ) => (e : ℤ) - (s : ℤ)) E S := by
  induction E generalizing S with
  | nil => simp
  | cons e es ih =>
    cases S with
    | nil => simp
    | cons s ss =>
      simp only [List.map_cons, List.zipWith_cons_cons, ih]
      congr 1
      push_cast
      ring

theorem rows_spec : ∀ row : List Bool,
    rowRunLengths row = (runsList row).map (fun (n : ℕ) => (n : ℤ)) ∧
    (rowStarts row).length = (runsList row).length ∧
    (rowEnds row).length = (runsList row).length := by
  intro row
  induction row with
  | nil => exact ⟨rfl, rfl, rfl⟩
  | cons b l ih =>
    obtain ⟨ihL, ihS, ihE⟩ := ih
    cases b with
    | false =>
      refine ⟨?_, ?_, ?_⟩
      · unfold rowRunLengths
        rw [S_false, E_false, zipWith_shift_cancel]
        exact ihL
      · rw [S_false, List.length_map]
        exact ihS
      · rw [E_false, List.length_map]
        exact ihE
    | true =>
      cases l with
      | nil => exact ⟨by decide, by decide, by decide⟩
      | cons hd tl =>
        cases hd with
        | false =>
          have hruns : runsList (true :: false :: tl) = 1 :: runsList (false :: tl) := by
            simp [runsList, runsAux]
          refine ⟨?_, ?_, ?_⟩
          · unfold rowRunLengths
            rw [S_true_false, E_true_false, List.zipWith_cons_cons, zipWith_shift_cancel,
              hruns, List.map_cons]
            have htail2 : List.zipWith (fun (e s : ℕ) => (e : ℤ) - (s : ℤ))
                (rowEnds (false :: tl)) (rowStarts (false :: tl)) =
                (runsList (false :: tl)).map (fun (n : ℕ) => (n : ℤ)) := ihL
            rw [htail2]
            norm_num
          · rw [S_true_false, List.length_cons, List.length_map, hruns, List.length_cons, ihS]
          · rw [E_true_false, List.length_cons, List.length_map, hruns, List.length_cons, ihE]
        | true =>
          have hne : runsList (true :: tl) ≠ [] := by
            rw [Ne, runsList_eq_nil_iff]
            simp
          have hSgt : rowStarts (true :: tl) = 0 :: (rowStarts (true :: tl)).tail := by
            rw [rowStarts_true]
            rfl
          have hEne : rowEnds (true :: tl) ≠ [] := by
            intro h
            have hpos := List.length_pos.mpr hne
            rw [← ihE, h] at hpos
            simp at hpos
          obtain ⟨e0, E2, hE⟩ := List.exists_cons_of_ne_nil hEne
          obtain ⟨r0, R2, hR⟩ := List.exists_cons_of_ne_nil hne
          have hzip : List.zipWith (fun (e s : ℕ) => (e : ℤ) - (s : ℤ)) (rowEnds (true :: tl))
              (rowStarts (true :: tl)) =
              ((e0 : ℤ) - ((0 : ℕ) : ℤ)) :: List.zipWith (fun (e s : ℕ) => (e : ℤ) - (s : ℤ)) E2
                ((rowStarts (true :: tl)).tail) := by
            rw [hE]
            conv_lhs => rw [hSgt]
            rw [List.zipWith_cons_cons]
          have hcomb : ((e0 : ℤ) - ((0 : ℕ) : ℤ)) :: List.zipWith
              (fun (e s : ℕ) => (e : ℤ) - (s : ℤ)) E2 ((rowStarts (true :: tl)).tail) =
              (r0 : ℤ) :: R2.map (fun (n : ℕ) => (n : ℤ)) := by
            rw [← hzip]
            have hL : List.zipWith (fun (e s : ℕ) => (e : ℤ) - (s : ℤ)) (rowEnds (true :: tl))
                (rowStarts (true :: tl)) = (runsList (true :: tl)).map (fun (n : ℕ) => (n : ℤ)) := ihL
            rw [hL, hR, List.map_cons]
          rw [List.cons.injEq] at hcomb
          obtain ⟨hhead, htail⟩ := hcomb
          have he0 : e0 = r0 := by
            push_cast at hhead
            omega
          have hruns1 : runsAux tl 1 = r0 :: R2 := hR
          have hruns2 : runsList (true :: true :: tl) = (r0 + 1) :: R2 := by
            show runsAux tl 2 = (r0 + 1) :: R2
            have h2 : runsAux tl (0 + 2) =
                ((runsAux tl (0 + 1)).headD 0 + 1) :: (runsAux tl (0 + 1)).tail :=
              runsAux_shift tl 0
            norm_num at h2
            rw [h2, hruns1]
            simp
          refine ⟨?_, ?_, ?_⟩
          · unfold rowRunLengths
            rw [S_true_true, E_true_true, hE, List.map_cons, List.zipWith_cons_cons,
              zipWith_shift_cancel, htail, hruns2, List.map_cons]
            congr 1
            rw [he0]
            push_cast
            ring
          · rw [S_true_true, List.length_cons, List.length_map, hruns2, List.length_cons]
            have hlS : (rowStarts (true :: tl)).length =
                ((rowStarts (true :: tl)).tail).length + 1 := by
              conv_lhs => rw [hSgt]
              simp
            have hlR : (runsList (true :: tl)).length = R2.length + 1 := by
              rw [hR]
              simp
            omega
          · rw [E_true_true, List.length_map, hruns2, List.length_cons]
            have hlR : (runsList (true :: tl)).length = R2.length + 1 := by
              rw [hR]
              simp
            omega

theorem foldl_max_cast (xs : List ℕ) :
    ∀ x : ℕ, ((xs.foldl max x : ℕ) : ℤ) = (xs.map (fun (n : ℕ) => (n : ℤ))).foldl max (x : ℤ) := by
  induction xs with
  | nil => intro x; rfl
  | cons y ys ih =>
    intro x
    simp only [List.foldl_cons, List.map_cons]
    rw [← Nat.cast_max, ← ih (max x y)]

theorem foldl_max_eq_foldr (xs : List ℕ) : ∀ x : ℕ, xs.foldl max x = max x (xs.foldr max 0) := by
  induction xs with
  | nil =>
    intro x
    simp
  | cons y ys ih =>
    intro x
    simp only [List.foldl_cons, List.foldr_cons]
    rw [ih (max x y)]
    omega

theorem zmax_map_coe (x : ℕ) (xs : List ℕ) :
    zmax ((x :: xs).map (fun (n : ℕ) => (n : ℤ))) = (((x :: xs).foldr max 0 : ℕ) : ℤ) := by
  simp only [List.map_cons, zmax, List.foldr_cons]
  rw [← foldl_max_cast xs x, foldl_max_eq_foldr xs x]

theorem maxConsecRow_eq (row : List Bool) : maxConsecRow row = (longestTrueRun row : ℤ) := by
  have hltr : longestTrueRun row = (runsList row).foldr max 0 := by
    unfold longestTrueRun runsList
    rw [longestRunAux_eq row 0 0]
    omega
  by_cases hany : row.any id = true
  · have hne : runsList row ≠ [] := by
      rw [Ne, runsList_eq_nil_iff]
      simp [hany]
    obtain ⟨hlen, hS, hE⟩ := rows_spec row
    have hpos := List.length_pos.mpr hne
    unfold maxConsecRow
    rw [if_pos hany, if_pos ⟨by omega, by omega⟩, hlen, hltr]
    obtain ⟨r0, R2, hR⟩ := List.exists_cons_of_ne_nil hne
    rw [hR]
    exact zmax_map_coe r0 R2
  · have hnil : runsList row = [] := (runsList_eq_nil_iff row).mpr (by simpa using hany)
    unfold maxConsecRow
    rw [if_neg hany, hltr, hnil]
    rfl

/-- C9: `_max_consecutive_true` returns, per row of the boolean matrix, the
length of the longest unbroken run of `True` cells (shown by equivalence with
the reference linear scan `longestTrueRun`, which handles all-false rows,
all-true rows and runs touching either boundary); in particular the row
`[T,T,F,T,T,T]` yields 3, an all-`False` row yields 0, and an all-`True` row
yields its length. -/
theorem max_consecutive_true_spec :
    (∀ arr : List (List Bool), maxConsecutiveTrue arr =
      arr.map (fun row => (longestTrueRun row : ℤ))) ∧
    maxConsecutiveTrue [[true, true, false, true, true, true]] = [3] ∧
    maxConsecutiveTrue [[false, false, false]] = [0] ∧
    maxConsecutiveTrue [[true, true, true, true]] = [4] := by
  refine ⟨?_, by decide, by decide, by decide⟩
  intro arr
  unfold maxConsecutiveTrue
  induction arr with
  | nil => rfl
  | cons row rest ih =>
    simp only [List.map_cons]
    rw [maxConsecRow_eq row, ih]

end KellyMC
